import Mathlib

/-!
# Singleton: the thread-safe and the non-thread-safe variant

Embedding of `Singleton/Conceptual/ThreadSafe/main.cc` and
`Singleton/Conceptual/NonThreadSafe/main.cc`.

* A `Singleton*` is an `Option Nat`: `none` is `nullptr`, `some a` is the address of the
  `a`-th object created by `new Singleton(..)`. The heap is the list of the objects created
  so far; nothing in either program deletes a `Singleton`, so the heap only grows and its
  length is the number of constructor executions.
* The static data members (`pinstance_`, `mutex_`, `singleton_`) are fields of an explicit
  state.
* `GetInstance` is given twice per variant: as a sequential function on the state, and as a
  thread program cut into atomic steps that a scheduler interleaves (sequentially consistent
  interleaving; `std::this_thread::sleep_for` only shifts the steps in time and is not a step).
-/

/-- How a sequential call of `GetInstance` ends: it returns a pointer, it lets the exception
of a failed `new Singleton(value)` escape, or it waits forever for the mutex. -/
inductive Outcome where
  | returned (p : Option Nat)
  | threw
  | blocked
deriving DecidableEq, Repr

/-- What the caller of one sequential `GetInstance(value)` sees: how the call ended, the result
of `value()` on the returned pointer (when there is one), and whether a constructor ran. -/
structure CallRecord where
  outcome : Outcome
  observed : Option String
  constructed : Bool
deriving DecidableEq, Repr

namespace ThreadSafe

/-- The data of `class Singleton`: the member `std::string value_`. -/
structure Singleton where
  value_ : String
deriving DecidableEq, Repr

/-- Method `std::string value() const`, returning `value_`. -/
def Singleton.value (self : Singleton) : String := self.value_

/-- Method `void SomeBusinessLogic()`, whose body is empty. -/
def Singleton.SomeBusinessLogic (self : Singleton) : Singleton := self

/-- A `std::mutex`: whether it is held, and how often it has been acquired so far. -/
structure Mutex where
  locked : Bool
  acquisitions : Nat
deriving DecidableEq, Repr

/-- Acquire the mutex; `none` when it is held (the caller cannot proceed). -/
def Mutex.lock (m : Mutex) : Option Mutex :=
  if m.locked then none else some ⟨true, m.acquisitions + 1⟩

/-- Release the mutex (the destructor of the `std::lock_guard`). -/
def Mutex.unlock (m : Mutex) : Mutex := ⟨false, m.acquisitions⟩

/-- The heap of `Singleton` objects and the static members `pinstance_` and `mutex_`. -/
structure State where
  heap : List Singleton
  pinstance_ : Option Nat
  mutex_ : Mutex
deriving DecidableEq, Repr

/-- Program start: `Singleton* Singleton::pinstance_{nullptr}; std::mutex Singleton::mutex_;` -/
def init : State := ⟨[], none, ⟨false, 0⟩⟩

/-- The expression `new Singleton(value)`: when it succeeds (`ctorOk`) the new object is placed
at the next free address, which is the value of the expression; when allocation or the
constructor raises there is no value and the heap is as before. -/
def new_Singleton (ctorOk : Bool) (value : String) (heap : List Singleton) :
    Option (Nat × List Singleton) :=
  if ctorOk then some (heap.length, heap ++ [⟨value⟩]) else none

/-- Sequential `Singleton::GetInstance(value)`:
```
if (pinstance_ == nullptr) {
    std::lock_guard<std::mutex> lock(mutex_);
    if (pinstance_ == nullptr) { pinstance_ = new Singleton(value); }
}
return pinstance_;
```
`ctorOk` says whether `new Singleton(value)` succeeds, should it be evaluated. -/
def GetInstance (ctorOk : Bool) (value : String) (s : State) : Outcome × State :=
  if s.pinstance_ = none then
    match s.mutex_.lock with
    | none => (.blocked, s)
    | some m =>
      let s1 : State := { s with mutex_ := m }
      if s1.pinstance_ = none then
        match new_Singleton ctorOk value s1.heap with
        | none => (.threw, { s1 with mutex_ := s1.mutex_.unlock })
        | some (p, h) =>
          let s2 : State := { s1 with heap := h, pinstance_ := some p }
          let s3 : State := { s2 with mutex_ := s2.mutex_.unlock }
          (.returned s3.pinstance_, s3)
      else
        let s3 : State := { s1 with mutex_ := s1.mutex_.unlock }
        (.returned s3.pinstance_, s3)
  else (.returned s.pinstance_, s)

/-- The expression `p->value()` for a pointer `p`; no value for a null or dangling pointer. -/
def deref_value (s : State) (p : Option Nat) : Option String :=
  match p with
  | none => none
  | some a => (s.heap[a]?).map Singleton.value

/-- One sequential call together with what its caller sees. -/
def call (ctorOk : Bool) (value : String) (s : State) : CallRecord × State :=
  let r := GetInstance ctorOk value s
  let obs : Option String :=
    match r.1 with
    | .returned p => deref_value r.2 p
    | _ => none
  (⟨r.1, obs, decide (s.heap.length < r.2.heap.length)⟩, r.2)

/-- Calls made one after another by a single thread; a call that blocks ends the sequence,
a call that throws is followed by the next one. -/
def calls : List (Bool × String) → State → List CallRecord × State
  | [], s => ([], s)
  | (ok, v) :: rest, s =>
    let r := call ok v s
    match r.1.outcome with
    | .blocked => ([r.1], r.2)
    | _ =>
      let rs := calls rest r.2
      (r.1 :: rs.1, rs.2)

/-- The public operations of the class: the static `GetInstance`, and `value()` and
`SomeBusinessLogic()` invoked through a pointer. -/
inductive Op where
  | GetInstance (ctorOk : Bool) (value : String)
  | value (p : Nat)
  | SomeBusinessLogic (p : Nat)
deriving DecidableEq, Repr

/-- Effect of one public operation on the state; `none` when the operation does not come back
(blocked `GetInstance`) or goes through a pointer to no object. -/
def applyOp (o : Op) (s : State) : Option State :=
  match o with
  | .GetInstance ok v =>
    match GetInstance ok v s with
    | (.blocked, _) => none
    | (_, s1) => some s1
  | .value p =>
    match s.heap[p]? with
    | none => none
    | some _ => some s
  | .SomeBusinessLogic p =>
    match s.heap[p]? with
    | none => none
    | some obj => some { s with heap := s.heap.set p obj.SomeBusinessLogic }

/-- A sequence of public operations. -/
def runOps : List Op → State → Option State
  | [], s => some s
  | o :: rest, s =>
    match applyOp o s with
    | none => none
    | some s1 => runOps rest s1

/-- Program counter of a thread that runs `Singleton* singleton = GetInstance(value);
std::cout << singleton->value()`: the atomic steps of `GetInstance` in source order, then the
harness's print. -/
inductive Pc where
  | check1
  | acquire
  | check2
  | construct
  | release
  | ret
  | returned (p : Option Nat)
  | printed (p : Option Nat)
deriving DecidableEq, Repr

/-- A thread: the argument it passes to `GetInstance` and where it stands. -/
structure Thread where
  value : String
  pc : Pc
deriving DecidableEq, Repr

/-- The next atomic step of a thread standing at `pc`, on the shared state and the output:
* `check1`: the unlocked `if (pinstance_ == nullptr)`;
* `acquire`: the constructor of the `lock_guard`, possible only while the mutex is free;
* `check2`: the `if (pinstance_ == nullptr)` under the lock;
* `construct`: `pinstance_ = new Singleton(value);`
* `release`: the destructor of the `lock_guard`;
* `ret`: `return pinstance_;`
* `returned p`: the caller prints `p->value()`;
* `printed p`: the thread function has ended. -/
def exec (value : String) (pc : Pc) (s : State) (out : List String) :
    Option (Pc × State × List String) :=
  match pc with
  | .check1 => some (if s.pinstance_ = none then .acquire else .ret, s, out)
  | .acquire =>
    match s.mutex_.lock with
    | none => none
    | some m => some (.check2, { s with mutex_ := m }, out)
  | .check2 => some (if s.pinstance_ = none then .construct else .release, s, out)
  | .construct =>
    match new_Singleton true value s.heap with
    | none => none
    | some (p, h) => some (.release, { s with heap := h, pinstance_ := some p }, out)
  | .release => some (.ret, { s with mutex_ := s.mutex_.unlock }, out)
  | .ret => some (.returned s.pinstance_, s, out)
  | .returned p =>
    match deref_value s p with
    | none => none
    | some v => some (.printed p, s, out ++ [v])
  | .printed _ => none

/-- The shared state, the threads, and the values printed so far (in print order). -/
structure World where
  st : State
  threads : List Thread
  out : List String
deriving DecidableEq, Repr

/-- The scheduler lets thread `t` take its next step; `none` when there is no such thread, when
it has ended, or when it waits for the mutex. -/
def step (t : Nat) (w : World) : Option World :=
  match w.threads[t]? with
  | none => none
  | some th =>
    match exec th.value th.pc w.st w.out with
    | none => none
    | some (pc1, s1, out1) => some ⟨s1, w.threads.set t ⟨th.value, pc1⟩, out1⟩

/-- An interleaving: the threads step in the order the schedule lists them. -/
def run : World → List Nat → Option World
  | w, [] => some w
  | w, t :: ts =>
    match step t w with
    | none => none
    | some w1 => run w1 ts

/-- One thread per argument, all about to call `GetInstance`, on a fresh cell. -/
def start (args : List String) : World :=
  ⟨init, args.map (fun v => ⟨v, .check1⟩), []⟩

/-- The function `ThreadFoo`: it calls `GetInstance("FOO")` and prints `value()`. -/
def ThreadFoo : Thread := ⟨"FOO", .check1⟩

/-- The function `ThreadBar`: it calls `GetInstance("BAR")` and prints `value()`. -/
def ThreadBar : Thread := ⟨"BAR", .check1⟩

/-- The function `main`: `std::thread t1(ThreadFoo); std::thread t2(ThreadBar);` (the banner
that `main` prints before it starts the threads is not part of `out`). -/
def main : World := ⟨init, [ThreadFoo, ThreadBar], []⟩

/-- Whether the thread's call of `GetInstance` has returned. -/
def Pc.hasReturned : Pc → Bool
  | .returned _ => true
  | .printed _ => true
  | _ => false

/-- The pointer a thread's call of `GetInstance` returned, once it has. -/
def Pc.result : Pc → Option (Option Nat)
  | .returned p => some p
  | .printed p => some p
  | _ => none

/-- Whether the thread function has ended. -/
def Pc.hasPrinted : Pc → Bool
  | .printed _ => true
  | _ => false

/-- Whether the thread holds the `lock_guard`. -/
def Pc.inCS : Pc → Bool
  | .check2 => true
  | .construct => true
  | .release => true
  | _ => false

/-- Number of steps a thread standing at `pc` can still take, at most. -/
def Pc.stepsLeft : Pc → Nat
  | .check1 => 7
  | .acquire => 6
  | .check2 => 5
  | .construct => 4
  | .release => 3
  | .ret => 2
  | .returned _ => 1
  | .printed _ => 0

/-- A single caller running the steps of `GetInstance` alone, from `pc` until the call has
returned; the result is the returned pointer and the state then. -/
def solo : Nat → String → Pc → State → Option (Option Nat × State)
  | 0, _, _, _ => none
  | n + 1, v, pc, s =>
    match pc with
    | .returned p => some (p, s)
    | _ =>
      match exec v pc s [] with
      | none => none
      | some (pc1, s1, _) => solo n v pc1 s1

/-- In a state met by a single thread between its calls the mutex is free and `pinstance_`,
when set, is the address of an object. -/
def Quiet (s : State) : Prop :=
  s.mutex_.locked = false ∧ ∀ p, s.pinstance_ = some p → p < s.heap.length

/-- One for a thread that holds the `lock_guard`, zero otherwise. -/
def csFlag (th : Thread) : Nat := if th.pc.inCS then 1 else 0

/-- Number of threads that hold the `lock_guard`. -/
def csCount (ts : List Thread) : Nat := (ts.map csFlag).sum

/-- One for a thread whose thread function has ended, zero otherwise. -/
def printedFlag (th : Thread) : Nat := if th.pc.hasPrinted then 1 else 0

/-- Number of threads whose thread function has ended. -/
def printedCount (ts : List Thread) : Nat := (ts.map printedFlag).sum

/-- Number of steps a thread can still take, at most. -/
def Thread.stepsLeft (th : Thread) : Nat := th.pc.stepsLeft

/-- Number of steps all threads together can still take, at most. -/
def remaining (ts : List Thread) : Nat := (ts.map Thread.stepsLeft).sum

/-- What a thread's position says about `pinstance_`: it is null for the thread about to
construct, and it is the first object's address for every thread past the critical section. -/
def ThreadOk (s : State) (th : Thread) : Prop :=
  match th.pc with
  | .check1 => True
  | .acquire => True
  | .check2 => True
  | .construct => s.pinstance_ = none
  | .release => s.pinstance_ = some 0
  | .ret => s.pinstance_ = some 0
  | .returned p => p = some 0 ∧ s.pinstance_ = some 0
  | .printed p => p = some 0 ∧ s.pinstance_ = some 0

/-- The invariant of the interleavings of callers with arguments `args`. -/
structure Inv (args : List String) (w : World) : Prop where
  vals : w.threads.map Thread.value = args
  cs : csCount w.threads = if w.st.mutex_.locked then 1 else 0
  ok : ∀ (i : Nat) (th : Thread), w.threads[i]? = some th → ThreadOk w.st th
  heap : (w.st.pinstance_ = none ∧ w.st.heap = []) ∨
    (w.st.pinstance_ = some 0 ∧ ∃ v ∈ args, w.st.heap = [⟨v⟩])
  out : ∀ x ∈ w.out, w.st.heap = [⟨x⟩]
  outLen : w.out.length = printedCount w.threads

end ThreadSafe

namespace NonThreadSafe

/-- The data of `class Singleton`: the member `std::string value_`. -/
structure Singleton where
  value_ : String
deriving DecidableEq, Repr

/-- Method `std::string value() const`, returning `value_`. -/
def Singleton.value (self : Singleton) : String := self.value_

/-- Method `void SomeBusinessLogic()`, whose body is empty. -/
def Singleton.SomeBusinessLogic (self : Singleton) : Singleton := self

/-- The heap of `Singleton` objects and the static member `singleton_`. -/
structure State where
  heap : List Singleton
  singleton_ : Option Nat
deriving DecidableEq, Repr

/-- Program start: `Singleton* Singleton::singleton_ = nullptr;` -/
def init : State := ⟨[], none⟩

/-- The expression `new Singleton(value)`, as in the other variant. -/
def new_Singleton (ctorOk : Bool) (value : String) (heap : List Singleton) :
    Option (Nat × List Singleton) :=
  if ctorOk then some (heap.length, heap ++ [⟨value⟩]) else none

/-- Sequential `Singleton::GetInstance(value)`:
```
if (singleton_ == nullptr) { singleton_ = new Singleton(value); }
return singleton_;
```
-/
def GetInstance (ctorOk : Bool) (value : String) (s : State) : Outcome × State :=
  if s.singleton_ = none then
    match new_Singleton ctorOk value s.heap with
    | none => (.threw, s)
    | some (p, h) =>
      let s1 : State := { s with heap := h, singleton_ := some p }
      (.returned s1.singleton_, s1)
  else (.returned s.singleton_, s)

/-- The expression `p->value()` for a pointer `p`; no value for a null or dangling pointer. -/
def deref_value (s : State) (p : Option Nat) : Option String :=
  match p with
  | none => none
  | some a => (s.heap[a]?).map Singleton.value

/-- One sequential call together with what its caller sees. -/
def call (ctorOk : Bool) (value : String) (s : State) : CallRecord × State :=
  let r := GetInstance ctorOk value s
  let obs : Option String :=
    match r.1 with
    | .returned p => deref_value r.2 p
    | _ => none
  (⟨r.1, obs, decide (s.heap.length < r.2.heap.length)⟩, r.2)

/-- Calls made one after another by a single thread. -/
def calls : List (Bool × String) → State → List CallRecord × State
  | [], s => ([], s)
  | (ok, v) :: rest, s =>
    let r := call ok v s
    match r.1.outcome with
    | .blocked => ([r.1], r.2)
    | _ =>
      let rs := calls rest r.2
      (r.1 :: rs.1, rs.2)

/-- The public operations of the class. -/
inductive Op where
  | GetInstance (ctorOk : Bool) (value : String)
  | value (p : Nat)
  | SomeBusinessLogic (p : Nat)
deriving DecidableEq, Repr

/-- Effect of one public operation on the state; `none` when it goes through a pointer to no
object. -/
def applyOp (o : Op) (s : State) : Option State :=
  match o with
  | .GetInstance ok v => some (GetInstance ok v s).2
  | .value p =>
    match s.heap[p]? with
    | none => none
    | some _ => some s
  | .SomeBusinessLogic p =>
    match s.heap[p]? with
    | none => none
    | some obj => some { s with heap := s.heap.set p obj.SomeBusinessLogic }

/-- A sequence of public operations. -/
def runOps : List Op → State → Option State
  | [], s => some s
  | o :: rest, s =>
    match applyOp o s with
    | none => none
    | some s1 => runOps rest s1

/-- Program counter of a thread that runs `Singleton* singleton = GetInstance(value);
std::cout << singleton->value()`. -/
inductive Pc where
  | check
  | construct
  | ret
  | returned (p : Option Nat)
  | printed (p : Option Nat)
deriving DecidableEq, Repr

/-- A thread: the argument it passes to `GetInstance` and where it stands. -/
structure Thread where
  value : String
  pc : Pc
deriving DecidableEq, Repr

/-- The next atomic step of a thread standing at `pc`:
* `check`: `if (singleton_ == nullptr)`;
* `construct`: `singleton_ = new Singleton(value);`
* `ret`: `return singleton_;`
* `returned p`: the caller prints `p->value()`;
* `printed p`: the thread function has ended. -/
def exec (value : String) (pc : Pc) (s : State) (out : List String) :
    Option (Pc × State × List String) :=
  match pc with
  | .check => some (if s.singleton_ = none then .construct else .ret, s, out)
  | .construct =>
    match new_Singleton true value s.heap with
    | none => none
    | some (p, h) => some (.ret, { s with heap := h, singleton_ := some p }, out)
  | .ret => some (.returned s.singleton_, s, out)
  | .returned p =>
    match deref_value s p with
    | none => none
    | some v => some (.printed p, s, out ++ [v])
  | .printed _ => none

/-- The shared state, the threads, and the values printed so far (in print order). -/
structure World where
  st : State
  threads : List Thread
  out : List String
deriving DecidableEq, Repr

/-- The scheduler lets thread `t` take its next step. -/
def step (t : Nat) (w : World) : Option World :=
  match w.threads[t]? with
  | none => none
  | some th =>
    match exec th.value th.pc w.st w.out with
    | none => none
    | some (pc1, s1, out1) => some ⟨s1, w.threads.set t ⟨th.value, pc1⟩, out1⟩

/-- An interleaving: the threads step in the order the schedule lists them. -/
def run : World → List Nat → Option World
  | w, [] => some w
  | w, t :: ts =>
    match step t w with
    | none => none
    | some w1 => run w1 ts

/-- The function `ThreadFoo`: it calls `GetInstance("FOO")` and prints `value()`. -/
def ThreadFoo : Thread := ⟨"FOO", .check⟩

/-- The function `ThreadBar`: it calls `GetInstance("BAR")` and prints `value()`. -/
def ThreadBar : Thread := ⟨"BAR", .check⟩

/-- The function `main`: `std::thread t1(ThreadFoo); std::thread t2(ThreadBar);` -/
def main : World := ⟨init, [ThreadFoo, ThreadBar], []⟩

/-- The pointer `singleton_`, when set, is the address of an object. -/
def Quiet (s : State) : Prop := ∀ p, s.singleton_ = some p → p < s.heap.length

end NonThreadSafe

/-- Corresponding states of the two variants: the same pointer in the static member, objects
with the same `value_` at the same addresses, and the mutex of the thread-safe variant free. -/
def Corresponds (a : ThreadSafe.State) (b : NonThreadSafe.State) : Prop :=
  a.mutex_.locked = false ∧ a.pinstance_ = b.singleton_ ∧
  a.heap.map ThreadSafe.Singleton.value = b.heap.map NonThreadSafe.Singleton.value

namespace ThreadSafe

/-- The body of the outer `if` of `GetInstance`, run on the state found at the moment the
caller asks for the lock (another thread may have stored an instance since the first check):
```
std::lock_guard<std::mutex> lock(mutex_);
if (pinstance_ == nullptr) { pinstance_ = new Singleton(value); }
```
followed by the release of the lock and `return pinstance_;`. -/
def lockedSection (ctorOk : Bool) (value : String) (s : State) : Outcome × State :=
  match s.mutex_.lock with
  | none => (.blocked, s)
  | some m =>
    let s1 : State := { s with mutex_ := m }
    if s1.pinstance_ = none then
      match new_Singleton ctorOk value s1.heap with
      | none => (.threw, { s1 with mutex_ := s1.mutex_.unlock })
      | some (p, h) =>
        let s2 : State := { s1 with heap := h, pinstance_ := some p }
        let s3 : State := { s2 with mutex_ := s2.mutex_.unlock }
        (.returned s3.pinstance_, s3)
    else
      let s3 : State := { s1 with mutex_ := s1.mutex_.unlock }
      (.returned s3.pinstance_, s3)

end ThreadSafe

/-! # Memento

Embedding of `Memento/Conceptual/main.cc`. The mementos a `Caretaker` holds are never changed
or deleted after `Save` has created them, so `mementos_` is the list of the memento objects
themselves, oldest first (`push_back` appends, `back` is the last element). What comes from
outside the program is a parameter: the text `std::ctime` gives at the moment of a `Save`, the
numbers `std::rand` returns during a `DoSomething`, and whether a `Restore` raises. The lines
written to `std::cout` are not part of the state. -/

namespace Memento

/-- The data of `class ConcreteMemento`: the members `state_` and `date_`. -/
structure ConcreteMemento where
  state_ : String
  date_ : String
deriving DecidableEq, Repr

/-- The constructor `ConcreteMemento(std::string state)`: it stores `state` and the text of the
current time, `now`. -/
def new_ConcreteMemento (state : String) (now : String) : ConcreteMemento := ⟨state, now⟩

/-- Method `std::string state() const`, returning `state_`. -/
def ConcreteMemento.state (self : ConcreteMemento) : String := self.state_

/-- Method `std::string date() const`, returning `date_`. -/
def ConcreteMemento.date (self : ConcreteMemento) : String := self.date_

/-- The data of `class Originator`: the member `state_`. -/
structure Originator where
  state_ : String
deriving DecidableEq, Repr

/-- The array `alphanum` of `GenerateRandomString`. -/
def alphanum : String := "0123456789ABCDEFGHIJKLMNOPQRSTUVWXYZabcdefghijklmnopqrstuvwxyz"

/-- Method `GenerateRandomString(length)`: `length` characters `alphanum[std::rand() %
stringLength]` with `stringLength = sizeof(alphanum) - 1`; `rand i` is what the `i`-th call of
`std::rand` in the loop returns. -/
def Originator.GenerateRandomString (rand : Nat → Nat) (length : Nat) : String :=
  String.mk ((List.range length).map (fun i => alphanum.toList.getD (rand i % alphanum.length) ' '))

/-- Method `DoSomething()`: `this->state_ = this->GenerateRandomString(30);` -/
def Originator.DoSomething (rand : Nat → Nat) (_self : Originator) : Originator :=
  ⟨Originator.GenerateRandomString rand 30⟩

/-- Method `Save()`: `return new ConcreteMemento(this->state_);` -/
def Originator.Save (now : String) (self : Originator) : ConcreteMemento :=
  new_ConcreteMemento self.state_ now

/-- Method `Restore(memento)`: `this->state_ = memento->state();`. With `restoreOk` false the
body raises before the assignment and there is no new originator state. -/
def Originator.Restore (restoreOk : Bool) (memento : ConcreteMemento) (_self : Originator) :
    Option Originator :=
  if restoreOk then some ⟨memento.state⟩ else none

/-- A `Caretaker` together with the `Originator` its member `originator_` points to. -/
structure State where
  originator : Originator
  mementos_ : List ConcreteMemento
deriving DecidableEq, Repr

/-- Method `Caretaker::Backup()`: `this->mementos_.push_back(this->originator_->Save());` -/
def Backup (now : String) (s : State) : State :=
  { s with mementos_ := s.mementos_ ++ [s.originator.Save now] }

/-- Method `Caretaker::Undo()`:
```
if (!this->mementos_.size()) { return; }
Memento *memento = this->mementos_.back();
this->mementos_.pop_back();
try { this->originator_->Restore(memento); } catch (...) { this->Undo(); }
```
`oks` lists, for the successive calls of `Restore` this `Undo` makes, whether each succeeds;
calls beyond the list succeed. -/
def Undo : List Bool → State → State
  | [], s =>
    match s.mementos_.getLast? with
    | none => s
    | some memento =>
      let s1 : State := { s with mementos_ := s.mementos_.dropLast }
      match s1.originator.Restore true memento with
      | some o => { s1 with originator := o }
      | none => s1
  | ok :: rest, s =>
    match s.mementos_.getLast? with
    | none => s
    | some memento =>
      let s1 : State := { s with mementos_ := s.mementos_.dropLast }
      match s1.originator.Restore ok memento with
      | some o => { s1 with originator := o }
      | none => Undo rest s1

/-- The calls the client makes before it rolls back: `caretaker->Backup()` and
`originator->DoSomething()`. -/
inductive Step where
  | Backup (now : String)
  | DoSomething (rand : Nat → Nat)

/-- Effect of one such call. -/
def Step.apply : Step → State → State
  | .Backup now, s => Memento.Backup now s
  | .DoSomething rand, s => { s with originator := s.originator.DoSomething rand }

/-- A sequence of such calls. -/
def steps : List Step → State → State
  | [], s => s
  | a :: rest, s => steps rest (a.apply s)

/-- A sequence of calls of `Undo`, one entry of `okss` per call. -/
def undos : List (List Bool) → State → State
  | [], s => s
  | oks :: rest, s => undos rest (Undo oks s)

/-- The originator states held at the successive `Backup` calls of a sequence of calls, in call
order: the states `s1, ..., sn` the backups capture. -/
def statesAtBackups : List Step → Originator → List String
  | [], _ => []
  | .Backup _ :: rest, o => o.state_ :: statesAtBackups rest o
  | .DoSomething rand :: rest, o => statesAtBackups rest (o.DoSomething rand)

/-- The function `ClientCode` up to its two `delete`s: three backups, each followed by a
`DoSomething`, then two `Undo`. -/
def ClientCode (now1 now2 now3 : String) (rand1 rand2 rand3 : Nat → Nat) : State :=
  let s0 : State := ⟨⟨"Super-duper-super-puper-super."⟩, []⟩
  let s1 := steps [.Backup now1, .DoSomething rand1, .Backup now2, .DoSomething rand2,
    .Backup now3, .DoSomething rand3] s0
  Undo [] (Undo [] s1)

end Memento

/-! # Chain of Responsibility

Embedding of `ChainOfResponsibility/Conceptual/main.cc`. A `Handler*` is an `Option Nat` into
the list of the handler objects created so far. `Handle` follows `next_handler_` pointers, so on
a cyclic chain it may not return; it is given with a bound on the number of handlers visited,
and it has no result when the bound is reached or a pointer leads to no object. -/

namespace ChainOfResponsibility

/-- The three concrete handler classes. -/
inductive Kind where
  | MonkeyHandler
  | SquirrelHandler
  | DogHandler
deriving DecidableEq, Repr

/-- A handler object: its class, and the member `next_handler_` of `AbstractHandler`. -/
structure AbstractHandler where
  kind : Kind
  next_handler_ : Option Nat
deriving DecidableEq, Repr

/-- The expressions `new MonkeyHandler`, `new SquirrelHandler`, `new DogHandler`: the
constructor `AbstractHandler()` sets `next_handler_(nullptr)`. -/
def new_Handler (kind : Kind) (heap : List AbstractHandler) : Nat × List AbstractHandler :=
  (heap.length, heap ++ [⟨kind, none⟩])

/-- Method `AbstractHandler::SetNext(handler)` on the object at `self`:
`this->next_handler_ = handler; return handler;`. -/
def SetNext (heap : List AbstractHandler) (self : Nat) (handler : Option Nat) :
    Option (Option Nat × List AbstractHandler) :=
  match heap[self]? with
  | none => none
  | some obj => some (handler, heap.set self { obj with next_handler_ := handler })

/-- The virtual method `Handle(request)` on the object at `self`. Each concrete class answers
its own request and otherwise calls `AbstractHandler::Handle`, which passes the request to
`next_handler_` when that is non-null and returns the empty string when it is null. -/
def Handle : Nat → List AbstractHandler → Nat → String → Option String
  | 0, _, _, _ => none
  | fuel + 1, heap, self, request =>
    match heap[self]? with
    | none => none
    | some obj =>
      let base : Option String :=
        match obj.next_handler_ with
        | some next => Handle fuel heap next request
        | none => some ""
      match obj.kind with
      | .MonkeyHandler =>
        if request = "Banana" then some ("Monkey: I'll eat the " ++ request ++ ".\n") else base
      | .SquirrelHandler =>
        if request = "Nut" then some ("Squirrel: I'll eat the " ++ request ++ ".\n") else base
      | .DogHandler =>
        if request = "MeatBall" then some ("Dog: I'll eat the " ++ request ++ ".\n") else base

/-- The function `ClientCode(handler)`: for each of the three foods, the question and then
either the answer of the chain or the remark that the food was left untouched. -/
def ClientCode (fuel : Nat) (heap : List AbstractHandler) (handler : Nat) :
    Option (List String) :=
  ["Nut", "Banana", "Cup of coffee"].foldlM
    (fun out f =>
      match Handle fuel heap handler f with
      | none => none
      | some result =>
        some (out ++ ["Client: Who wants a " ++ f ++ "?\n",
          if result ≠ "" then "  " ++ result else "  " ++ f ++ " was left untouched.\n"]))
    []

/-- The chain built by `main`: `monkey`, `squirrel` and `dog` are created in this order and
linked by `monkey->SetNext(squirrel)->SetNext(dog);`. The result is the heap with the three
pointers. -/
def main : Option (List AbstractHandler × Nat × Nat × Nat) :=
  let (monkey, h1) := new_Handler .MonkeyHandler []
  let (squirrel, h2) := new_Handler .SquirrelHandler h1
  let (dog, h3) := new_Handler .DogHandler h2
  match SetNext h3 monkey (some squirrel) with
  | some (some r, h4) =>
    match SetNext h4 r (some dog) with
    | some (_, h5) => some (h5, monkey, squirrel, dog)
    | none => none
  | _ => none

/-- The classes of the handlers met from the pointer `h` along `next_handler_`, in chain order,
when the chain ends in a null pointer within `fuel` handlers. -/
def chain : Nat → List AbstractHandler → Option Nat → Option (List Kind)
  | _, _, none => some []
  | 0, _, some _ => none
  | fuel + 1, heap, some h =>
    match heap[h]? with
    | none => none
    | some obj =>
      match chain fuel heap obj.next_handler_ with
      | none => none
      | some ks => some (obj.kind :: ks)

/-- The request a handler of the given class recognises, as the claim lists them. -/
def Kind.food : Kind → String
  | .MonkeyHandler => "Banana"
  | .SquirrelHandler => "Nut"
  | .DogHandler => "MeatBall"

/-- The name a handler of the given class puts in front of its reply. -/
def Kind.animal : Kind → String
  | .MonkeyHandler => "Monkey"
  | .SquirrelHandler => "Squirrel"
  | .DogHandler => "Dog"

/-- The reply of the first handler in the list that recognises the request, and the empty
string when none does: the dispatch as the claim words it. -/
def firstReply : List Kind → String → String
  | [], _ => ""
  | k :: ks, r => if r = k.food then k.animal ++ ": I'll eat the " ++ r ++ ".\n" else firstReply ks r

end ChainOfResponsibility

/-! # Composite

Embedding of `Composite/Conceptual/main.cc`. A `Component*` is an index into the list of the
components created so far; a null pointer is `none`. `Operation` recurses through the child
pointers, so on a cyclic structure it may not return; it is given with a bound on the depth,
and it has no result when the bound is reached or a pointer leads to no object. -/

namespace Composite

/-- An object of class `Leaf` or of class `Composite`: both have the member `parent_` of
`Component`, a `Composite` has the list `children_` as well. -/
inductive Component where
  | Leaf (parent_ : Option Nat)
  | Composite (parent_ : Option Nat) (children_ : List Nat)
deriving DecidableEq, Repr

/-- The member `parent_`. -/
def Component.parent_ : Component → Option Nat
  | .Leaf p => p
  | .Composite p _ => p

/-- The expression `new Leaf`. No constructor initialises `parent_`; `parent0` is the value
the member happens to hold. -/
def new_Leaf (parent0 : Option Nat) (heap : List Component) : Nat × List Component :=
  (heap.length, heap ++ [.Leaf parent0])

/-- The expression `new Composite`: `children_` is empty; `parent_` as for `new Leaf`. -/
def new_Composite (parent0 : Option Nat) (heap : List Component) : Nat × List Component :=
  (heap.length, heap ++ [.Composite parent0 []])

/-- Method `SetParent(parent)` on the object at `self`: `this->parent_ = parent;` -/
def SetParent (heap : List Component) (self : Nat) (parent : Option Nat) :
    Option (List Component) :=
  match heap[self]? with
  | none => none
  | some (.Leaf _) => some (heap.set self (.Leaf parent))
  | some (.Composite _ ch) => some (heap.set self (.Composite parent ch))

/-- Method `GetParent()` on the object at `self`: `return this->parent_;` -/
def GetParent (heap : List Component) (self : Nat) : Option (Option Nat) :=
  match heap[self]? with
  | none => none
  | some obj => some obj.parent_

/-- The virtual method `IsComposite()`. -/
def IsComposite (heap : List Component) (self : Nat) : Option Bool :=
  match heap[self]? with
  | none => none
  | some (.Leaf _) => some false
  | some (.Composite _ _) => some true

/-- The virtual method `Add(component)` on the object at `self`. For a `Composite`:
`this->children_.push_back(component); component->SetParent(this);`. For a `Leaf` the body
inherited from `Component` is empty. -/
def Add (heap : List Component) (self : Nat) (component : Nat) : Option (List Component) :=
  match heap[self]? with
  | none => none
  | some (.Leaf _) => some heap
  | some (.Composite p ch) =>
    SetParent (heap.set self (.Composite p (ch ++ [component]))) component (some self)

/-- The virtual method `Remove(component)` on the object at `self`. For a `Composite`:
`children_.remove(component); component->SetParent(nullptr);`, where `std::list::remove` erases
every element equal to `component`. For a `Leaf` the inherited body is empty. -/
def Remove (heap : List Component) (self : Nat) (component : Nat) : Option (List Component) :=
  match heap[self]? with
  | none => none
  | some (.Leaf _) => some heap
  | some (.Composite p ch) =>
    SetParent (heap.set self (.Composite p (ch.filter (fun x => x ≠ component)))) component none

/-- The loop of `Composite::Operation` over the rest of `children_`:
```
for (const Component *c : children_) {
  if (c == children_.back()) { result += c->Operation(); }
  else { result += c->Operation() + "+"; }
}
```
`op` is the virtual `Operation` of a child, `back` the pointer `children_.back()`. -/
def Operation_loop (op : Nat → Option String) (back : Option Nat) :
    List Nat → String → Option String
  | [], result => some result
  | c :: rest, result =>
    match op c with
    | none => none
    | some r =>
      if some c = back then Operation_loop op back rest (result ++ r)
      else Operation_loop op back rest (result ++ (r ++ "+"))

/-- The virtual method `Operation()` on the object at `self`: a `Leaf` returns "Leaf", a
`Composite` returns `"Branch(" + result + ")"` with the `result` of the loop over its
children. -/
def Operation : Nat → List Component → Nat → Option String
  | 0, _, _ => none
  | fuel + 1, heap, self =>
    match heap[self]? with
    | none => none
    | some (.Leaf _) => some "Leaf"
    | some (.Composite _ children_) =>
      match Operation_loop (Operation fuel heap) children_.getLast? children_ "" with
      | none => none
      | some result => some ("Branch(" ++ result ++ ")")

/-- The list `children_` of the object at `self`; empty for a `Leaf` and for no object. -/
def childrenOf (heap : List Component) (self : Nat) : List Nat :=
  match heap[self]? with
  | some (.Composite _ ch) => ch
  | _ => []

/-- A call of `Add` or `Remove` on the object at `self`. -/
inductive Call where
  | Add (self component : Nat)
  | Remove (self component : Nat)
deriving DecidableEq, Repr

/-- Effect of a call. -/
def Call.apply : Call → List Component → Option (List Component)
  | .Add self component, heap => Composite.Add heap self component
  | .Remove self component, heap => Composite.Remove heap self component

/-- A sequence of calls. -/
def run : List Call → List Component → Option (List Component)
  | [], heap => some heap
  | c :: rest, heap =>
    match c.apply heap with
    | none => none
    | some h1 => run rest h1

/-- A freshly created component as the claim takes it: `parent_` null and, for a `Composite`,
no children. -/
def Component.isFresh : Component → Bool
  | .Leaf none => true
  | .Composite none [] => true
  | _ => false

/-- Whether a call `P.Add(c)` or `P.Remove(c)` is made while `c.GetParent()` is null or `P`. -/
def Call.allowed (heap : List Component) : Call → Bool
  | .Add self component =>
    decide (GetParent heap component = some none ∨ GetParent heap component = some (some self))
  | .Remove self component =>
    decide (GetParent heap component = some none ∨ GetParent heap component = some (some self))

/-- Whether every call of the sequence is allowed in the state in which it is made. -/
def disciplined : List Call → List Component → Bool
  | [], _ => true
  | c :: rest, heap =>
    c.allowed heap &&
      match c.apply heap with
      | none => true
      | some h1 => disciplined rest h1

/-- The results of the children joined with one "+" between consecutive ones: the format as
the claim words it. -/
def joinPlus : List String → String
  | [] => ""
  | [r] => r
  | r :: r2 :: rest => r ++ "+" ++ joinPlus (r2 :: rest)

/-- The objects `main` creates and links, up to the first `ClientCode(tree)`: `simple`, `tree`,
`branch1`, `leaf_1`, `leaf_2`, `leaf_3`, `branch2` are created in this order, with
`branch1->Add(leaf_1); branch1->Add(leaf_2); branch2->Add(leaf_3); tree->Add(branch1);
tree->Add(branch2);`. The result is the heap and the pointer `tree`. -/
def main : Option (List Component × Nat) :=
  let (_simple, h1) := new_Leaf none []
  let (tree, h2) := new_Composite none h1
  let (branch1, h3) := new_Composite none h2
  let (leaf_1, h4) := new_Leaf none h3
  let (leaf_2, h5) := new_Leaf none h4
  let (leaf_3, h6) := new_Leaf none h5
  match Add h6 branch1 leaf_1 with
  | none => none
  | some h7 =>
    match Add h7 branch1 leaf_2 with
    | none => none
    | some h8 =>
      let (branch2, h9) := new_Composite none h8
      match run [.Add branch2 leaf_3, .Add tree branch1, .Add tree branch2] h9 with
      | none => none
      | some h10 => some (h10, tree)

end Composite

/-! ## The thread-safe variant, one caller at a time -/

namespace ThreadSafe

theorem ts_GetInstance_of_some (ok : Bool) (v : String) (s : State) (p : Nat)
    (h : s.pinstance_ = some p) : GetInstance ok v s = (.returned (some p), s) := by
  simp [GetInstance, h]

theorem ts_GetInstance_of_none (ok : Bool) (v : String) (s : State)
    (h : s.pinstance_ = none) (hfree : s.mutex_.locked = false) :
    GetInstance ok v s =
      if ok then (.returned (some s.heap.length),
                  ⟨s.heap ++ [⟨v⟩], some s.heap.length, ⟨false, s.mutex_.acquisitions + 1⟩⟩)
      else (.threw, ⟨s.heap, none, ⟨false, s.mutex_.acquisitions + 1⟩⟩) := by
  cases ok <;> simp [GetInstance, h, hfree, Mutex.lock, Mutex.unlock, new_Singleton]

theorem call_of_some (ok : Bool) (v : String) (s : State) (p : Nat)
    (h : s.pinstance_ = some p) :
    call ok v s = (⟨.returned (some p), deref_value s (some p), false⟩, s) := by
  simp [call, ts_GetInstance_of_some ok v s p h]

theorem calls_of_some (s : State) (p : Nat) (h : s.pinstance_ = some p) :
    ∀ cs : List (Bool × String),
      calls cs s =
        (List.replicate cs.length ⟨.returned (some p), deref_value s (some p), false⟩, s) := by
  intro cs
  induction cs with
  | nil => rfl
  | cons c rest ih =>
    obtain ⟨ok, v⟩ := c
    simp [calls, call_of_some ok v s p h, ih, List.replicate_succ]

/-- The two embeddings of `GetInstance` agree: from a state with a free mutex, a caller that
runs the atomic steps alone returns what the sequential function returns, in the same state. -/
theorem solo_eq_GetInstance (v : String) (s : State) (hfree : s.mutex_.locked = false) :
    ∃ p s1, solo 7 v .check1 s = some (p, s1) ∧ GetInstance true v s = (.returned p, s1) := by
  cases hp : s.pinstance_ with
  | some a =>
    refine ⟨some a, s, ?_, ts_GetInstance_of_some true v s a hp⟩
    simp [solo, exec, hp]
  | none =>
    rw [ts_GetInstance_of_none true v s hp hfree]
    simp [solo, exec, hp, hfree, Mutex.lock, Mutex.unlock, new_Singleton]

/-- Claim C2 (idempotence of the thread-safe `GetInstance`): in every state whose `pinstance_`
is a non-null pointer `p`, and for every argument `v` (whether or not a construction would
succeed), `GetInstance(v)` returns exactly `p` and leaves the whole state as it was: no object
is constructed, `pinstance_` is still `p`, the stored object is unchanged. Hence any sequence of
further sequential calls returns `p` every time, constructs nothing, shows the same `value()`
and ends in the same state. -/
theorem GetInstance_idempotent (s : State) (p : Nat) (h : s.pinstance_ = some p)
    (ok : Bool) (v : String) :
    GetInstance ok v s = (.returned (some p), s) ∧
    (GetInstance ok v s).2.heap.length = s.heap.length ∧
    (GetInstance ok v s).2.pinstance_ = some p ∧
    (GetInstance ok v s).2.heap[p]? = s.heap[p]? ∧
    ∀ cs : List (Bool × String),
      calls cs s =
        (List.replicate cs.length ⟨.returned (some p), deref_value s (some p), false⟩, s) := by
  have e := ts_GetInstance_of_some ok v s p h
  refine ⟨e, ?_, ?_, ?_, calls_of_some s p h⟩
  · rw [e]
  · rw [e]; exact h
  · rw [e]

theorem GetInstance_idempotent_witness :
    (GetInstance true "BAR" ⟨[⟨"FOO"⟩], some 0, ⟨false, 1⟩⟩).1 = .returned (some 0) ∧
    (calls [(true, "BAR"), (false, "BAZ")] ⟨[⟨"FOO"⟩], some 0, ⟨false, 1⟩⟩).1
      = [⟨.returned (some 0), some "FOO", false⟩, ⟨.returned (some 0), some "FOO", false⟩] := by
  have h := GetInstance_idempotent ⟨[⟨"FOO"⟩], some 0, ⟨false, 1⟩⟩ 0 rfl true "BAR"
  refine ⟨by rw [h.1], ?_⟩
  rw [h.2.2.2.2]
  rfl

theorem call_first (v : String) :
    call true v init = (⟨.returned (some 0), some v, true⟩, ⟨[⟨v⟩], some 0, ⟨false, 1⟩⟩) := by
  have e := ts_GetInstance_of_none true v init rfl rfl
  simp only [if_true] at e
  simp only [call, e]
  simp [init, deref_value, Singleton.value]

/-- Claim C3 (first caller wins): when the arguments `v1, v2, ..., vn` are passed one after
another to the thread-safe `GetInstance` from the initial state, the first call constructs the
object at address 0 with `value_ = v1`, every call returns that same address and `value()` on
it is `v1`, no later call constructs anything, and the final state holds the single object
`v1` whatever `v2, ..., vn` are. -/
theorem first_caller_wins (v1 : String) (rest : List String) :
    calls ((v1 :: rest).map (fun v => (true, v))) init =
      (⟨.returned (some 0), some v1, true⟩ ::
          List.replicate rest.length ⟨.returned (some 0), some v1, false⟩,
        ⟨[⟨v1⟩], some 0, ⟨false, 1⟩⟩) := by
  have h := calls_of_some ⟨[⟨v1⟩], some 0, ⟨false, 1⟩⟩ 0 rfl (rest.map (fun v => (true, v)))
  simp only [List.map_cons, calls, call_first, h]
  simp [deref_value, Singleton.value]

/-- Claim C5 (failure non-corruption): when `pinstance_` is null and the mutex is free, a call
of the thread-safe `GetInstance(v)` in which `new Singleton(v)` raises lets the exception escape
to the caller, leaves `pinstance_` null and the heap as it was, and has released the mutex; a
following call `GetInstance(w)` whose construction succeeds constructs one object, returns its
address, and `value()` on it is `w`. -/
theorem failure_non_corruption (s : State) (hnull : s.pinstance_ = none)
    (hfree : s.mutex_.locked = false) (v w : String) :
    (GetInstance false v s).1 = .threw ∧
    (GetInstance false v s).2.pinstance_ = none ∧
    (GetInstance false v s).2.heap = s.heap ∧
    (GetInstance false v s).2.mutex_.locked = false ∧
    (call true w (GetInstance false v s).2).1 =
      ⟨.returned (some s.heap.length), some w, true⟩ := by
  have e := ts_GetInstance_of_none false v s hnull hfree
  simp only [Bool.false_eq_true, if_false] at e
  rw [e]
  refine ⟨rfl, rfl, rfl, rfl, ?_⟩
  simp [call, ts_GetInstance_of_none true w ⟨s.heap, none, ⟨false, s.mutex_.acquisitions + 1⟩⟩ rfl rfl,
    deref_value, Singleton.value]

theorem failure_non_corruption_witness :
    (GetInstance false "FOO" init).1 = .threw ∧
    (GetInstance false "FOO" init).2.pinstance_ = none ∧
    (call true "BAR" (GetInstance false "FOO" init).2).1 = ⟨.returned (some 0), some "BAR", true⟩ :=
  have h := failure_non_corruption init rfl rfl "FOO" "BAR"
  ⟨h.1, h.2.1, h.2.2.2.2⟩

end ThreadSafe

/-! ## The non-thread-safe variant, one caller at a time -/

namespace NonThreadSafe

theorem nts_GetInstance_of_some (ok : Bool) (v : String) (s : State) (p : Nat)
    (h : s.singleton_ = some p) : GetInstance ok v s = (.returned (some p), s) := by
  simp [GetInstance, h]

theorem nts_GetInstance_of_none (ok : Bool) (v : String) (s : State) (h : s.singleton_ = none) :
    GetInstance ok v s =
      if ok then (.returned (some s.heap.length), ⟨s.heap ++ [⟨v⟩], some s.heap.length⟩)
      else (.threw, s) := by
  cases ok <;> simp [GetInstance, h, new_Singleton]

/-- Claim C7 (sequential contract of the non-thread-safe `GetInstance`): for every argument
`v`, if `singleton_` is null the call (its `new Singleton(v)` succeeding) constructs exactly one
`Singleton`, at the next free address, whose `value()` is `v`, stores that address in
`singleton_` and returns it; if `singleton_` is a non-null `p` the call returns `p` and changes
nothing. -/
theorem GetInstance_sequential (v : String) (s : State) :
    (s.singleton_ = none →
      GetInstance true v s =
        (.returned (some s.heap.length), ⟨s.heap ++ [⟨v⟩], some s.heap.length⟩) ∧
      (GetInstance true v s).2.heap.length = s.heap.length + 1 ∧
      deref_value (GetInstance true v s).2 (some s.heap.length) = some v) ∧
    (∀ p : Nat, s.singleton_ = some p → ∀ ok : Bool,
      GetInstance ok v s = (.returned (some p), s)) := by
  refine ⟨fun h => ?_, fun p h ok => nts_GetInstance_of_some ok v s p h⟩
  have e := nts_GetInstance_of_none true v s h
  simp only [if_true] at e
  rw [e]
  simp [deref_value, Singleton.value]

theorem GetInstance_sequential_witness :
    GetInstance true "FOO" init = (.returned (some 0), ⟨[⟨"FOO"⟩], some 0⟩) ∧
    GetInstance true "BAR" ⟨[⟨"FOO"⟩], some 0⟩ = (.returned (some 0), ⟨[⟨"FOO"⟩], some 0⟩) :=
  ⟨((GetInstance_sequential "FOO" init).1 rfl).1,
   (GetInstance_sequential "BAR" ⟨[⟨"FOO"⟩], some 0⟩).2 0 rfl true⟩

end NonThreadSafe

/-! ## Sequences of public operations -/

theorem List.set_of_getElem? {α : Type} (l : List α) (p : Nat) (x : α) (h : l[p]? = some x) :
    l.set p x = l := by
  induction l generalizing p with
  | nil => rfl
  | cons a l ih =>
    cases p with
    | zero => simp at h; simp [h]
    | succ p => simp at h; simp [ih p h]

namespace ThreadSafe

theorem ts_quiet_init : Quiet init := ⟨rfl, fun p h => by simp [init] at h⟩

theorem ts_quiet_GetInstance (ok : Bool) (v : String) (s : State) (h : Quiet s) :
    Quiet (GetInstance ok v s).2 ∧ (GetInstance ok v s).1 ≠ .blocked := by
  cases hp : s.pinstance_ with
  | some p => rw [ts_GetInstance_of_some ok v s p hp]; exact ⟨h, by simp⟩
  | none =>
    rw [ts_GetInstance_of_none ok v s hp h.1]
    cases ok <;> simp [Quiet]

theorem ts_applyOp_keeps (o : Op) (s s1 : State) (h : applyOp o s = some s1) :
    (Quiet s → Quiet s1) ∧
    ∀ p, s.pinstance_ = some p → s1.pinstance_ = some p ∧ s1.heap = s.heap := by
  cases o with
  | GetInstance ok v =>
    constructor
    · intro hq
      have := (ts_quiet_GetInstance ok v s hq).1
      simp only [applyOp] at h
      split at h
      · simp at h
      · rename_i o2 s2 _ heq
        simp at h
        rw [heq] at this
        exact h ▸ this
    · intro p hp
      simp only [applyOp, ts_GetInstance_of_some ok v s p hp] at h
      simp at h
      subst h
      exact ⟨hp, rfl⟩
  | value p =>
    simp only [applyOp] at h
    split at h
    · simp at h
    · simp at h; subst h; exact ⟨id, fun p hp => ⟨hp, rfl⟩⟩
  | SomeBusinessLogic p =>
    simp only [applyOp] at h
    split at h
    · simp at h
    · rename_i obj hobj
      simp only [Singleton.SomeBusinessLogic, List.set_of_getElem? _ _ _ hobj] at h
      simp at h; subst h; exact ⟨id, fun p hp => ⟨hp, rfl⟩⟩

theorem ts_runOps_keeps (ops : List Op) : ∀ (s s1 : State), runOps ops s = some s1 →
    (Quiet s → Quiet s1) ∧
    ∀ p, s.pinstance_ = some p → s1.pinstance_ = some p ∧ s1.heap = s.heap := by
  induction ops with
  | nil => intro s s1 h; simp [runOps] at h; subst h; exact ⟨id, fun p hp => ⟨hp, rfl⟩⟩
  | cons o rest ih =>
    intro s s1 h
    simp only [runOps] at h
    split at h
    · simp at h
    · rename_i s2 h2
      have a := ts_applyOp_keeps o s s2 h2
      have b := ih s2 s1 h
      refine ⟨fun hq => b.1 (a.1 hq), fun p hp => ?_⟩
      have c := b.2 p (a.2 p hp).1
      exact ⟨c.1, c.2.trans (a.2 p hp).2⟩

end ThreadSafe

namespace NonThreadSafe

theorem nts_quiet_init : Quiet init := fun p h => by simp [init] at h

theorem nts_quiet_GetInstance (ok : Bool) (v : String) (s : State) (h : Quiet s) :
    Quiet (GetInstance ok v s).2 := by
  cases hp : s.singleton_ with
  | some p => rw [nts_GetInstance_of_some ok v s p hp]; exact h
  | none =>
    rw [nts_GetInstance_of_none ok v s hp]
    cases ok
    · simpa using h
    · simp [Quiet]

theorem nts_applyOp_keeps (o : Op) (s s1 : State) (h : applyOp o s = some s1) :
    (Quiet s → Quiet s1) ∧
    ∀ p, s.singleton_ = some p → s1.singleton_ = some p ∧ s1.heap = s.heap := by
  cases o with
  | GetInstance ok v =>
    simp only [applyOp] at h
    simp at h
    subst h
    refine ⟨nts_quiet_GetInstance ok v s, fun p hp => ?_⟩
    rw [nts_GetInstance_of_some ok v s p hp]
    exact ⟨hp, rfl⟩
  | value p =>
    simp only [applyOp] at h
    split at h
    · simp at h
    · simp at h; subst h; exact ⟨id, fun p hp => ⟨hp, rfl⟩⟩
  | SomeBusinessLogic p =>
    simp only [applyOp] at h
    split at h
    · simp at h
    · rename_i obj hobj
      simp only [Singleton.SomeBusinessLogic, List.set_of_getElem? _ _ _ hobj] at h
      simp at h; subst h; exact ⟨id, fun p hp => ⟨hp, rfl⟩⟩

theorem nts_runOps_keeps (ops : List Op) : ∀ (s s1 : State), runOps ops s = some s1 →
    (Quiet s → Quiet s1) ∧
    ∀ p, s.singleton_ = some p → s1.singleton_ = some p ∧ s1.heap = s.heap := by
  induction ops with
  | nil => intro s s1 h; simp [runOps] at h; subst h; exact ⟨id, fun p hp => ⟨hp, rfl⟩⟩
  | cons o rest ih =>
    intro s s1 h
    simp only [runOps] at h
    split at h
    · simp at h
    · rename_i s2 h2
      have a := nts_applyOp_keeps o s s2 h2
      have b := ih s2 s1 h
      refine ⟨fun hq => b.1 (a.1 hq), fun p hp => ?_⟩
      have c := b.2 p (a.2 p hp).1
      exact ⟨c.1, c.2.trans (a.2 p hp).2⟩

end NonThreadSafe

/-- Claim C8 (create once, never reset): for both variants, in every state reached from the
initial state by a sequence of public operations (`GetInstance` with any argument, `value()`,
`SomeBusinessLogic()`), once the static pointer is a non-null `p`, after any further sequence
of public operations it is still `p` and the object at `p` is the same, so its `value_` never
changes. For the thread-safe variant no `GetInstance` in such a sequence ever blocks. -/
theorem create_once :
    (∀ (ops1 ops2 : List ThreadSafe.Op) (s1 s2 : ThreadSafe.State) (p : Nat),
      ThreadSafe.runOps ops1 ThreadSafe.init = some s1 → s1.pinstance_ = some p →
      ThreadSafe.runOps ops2 s1 = some s2 →
        s2.pinstance_ = some p ∧
        (∃ obj, s1.heap[p]? = some obj ∧ s2.heap[p]? = some obj) ∧
        ∀ ok v, (ThreadSafe.GetInstance ok v s2).1 ≠ .blocked) ∧
    (∀ (ops1 ops2 : List NonThreadSafe.Op) (s1 s2 : NonThreadSafe.State) (p : Nat),
      NonThreadSafe.runOps ops1 NonThreadSafe.init = some s1 → s1.singleton_ = some p →
      NonThreadSafe.runOps ops2 s1 = some s2 →
        s2.singleton_ = some p ∧
        ∃ obj, s1.heap[p]? = some obj ∧ s2.heap[p]? = some obj) := by
  constructor
  · intro ops1 ops2 s1 s2 p h1 hp h2
    have q1 := (ThreadSafe.ts_runOps_keeps ops1 _ _ h1).1 ThreadSafe.ts_quiet_init
    have k := ThreadSafe.ts_runOps_keeps ops2 _ _ h2
    have lt := q1.2 p hp
    refine ⟨(k.2 p hp).1, ⟨s1.heap[p], ?_, ?_⟩, fun ok v => ?_⟩
    · simp [lt]
    · rw [(k.2 p hp).2]; simp [lt]
    · exact (ThreadSafe.ts_quiet_GetInstance ok v s2 (k.1 q1)).2
  · intro ops1 ops2 s1 s2 p h1 hp h2
    have q1 := (NonThreadSafe.nts_runOps_keeps ops1 _ _ h1).1 NonThreadSafe.nts_quiet_init
    have k := NonThreadSafe.nts_runOps_keeps ops2 _ _ h2
    have lt := q1 p hp
    refine ⟨(k.2 p hp).1, ⟨s1.heap[p], ?_, ?_⟩⟩
    · simp [lt]
    · rw [(k.2 p hp).2]; simp [lt]

theorem create_once_witness :
    (ThreadSafe.runOps [.GetInstance true "FOO"] ThreadSafe.init
        = some ⟨[⟨"FOO"⟩], some 0, ⟨false, 1⟩⟩ ∧
      ThreadSafe.runOps [.GetInstance true "BAR", .SomeBusinessLogic 0, .value 0]
        ⟨[⟨"FOO"⟩], some 0, ⟨false, 1⟩⟩ = some ⟨[⟨"FOO"⟩], some 0, ⟨false, 1⟩⟩) ∧
    (NonThreadSafe.runOps [.GetInstance true "FOO"] NonThreadSafe.init
        = some ⟨[⟨"FOO"⟩], some 0⟩ ∧
      NonThreadSafe.runOps [.GetInstance true "BAR", .SomeBusinessLogic 0, .value 0]
        ⟨[⟨"FOO"⟩], some 0⟩ = some ⟨[⟨"FOO"⟩], some 0⟩) ∧
    (∃ obj : ThreadSafe.Singleton, [ThreadSafe.Singleton.mk "FOO"][0]? = some obj) ∧
    (∃ obj : NonThreadSafe.Singleton, [NonThreadSafe.Singleton.mk "FOO"][0]? = some obj) := by
  have a : ThreadSafe.runOps [.GetInstance true "FOO"] ThreadSafe.init
        = some ⟨[⟨"FOO"⟩], some 0, ⟨false, 1⟩⟩ := by decide
  have b : ThreadSafe.runOps [.GetInstance true "BAR", .SomeBusinessLogic 0, .value 0]
        ⟨[⟨"FOO"⟩], some 0, ⟨false, 1⟩⟩ = some ⟨[⟨"FOO"⟩], some 0, ⟨false, 1⟩⟩ := by decide
  have c : NonThreadSafe.runOps [.GetInstance true "FOO"] NonThreadSafe.init
        = some ⟨[⟨"FOO"⟩], some 0⟩ := by decide
  have d : NonThreadSafe.runOps [.GetInstance true "BAR", .SomeBusinessLogic 0, .value 0]
        ⟨[⟨"FOO"⟩], some 0⟩ = some ⟨[⟨"FOO"⟩], some 0⟩ := by decide
  refine ⟨⟨a, b⟩, ⟨c, d⟩, ?_, ?_⟩
  · obtain ⟨_, ⟨obj, h, _⟩, _⟩ := create_once.1 _ _ _ _ 0 a rfl b
    exact ⟨obj, h⟩
  · obtain ⟨_, ⟨obj, h, _⟩⟩ := create_once.2 _ _ _ _ 0 c rfl d
    exact ⟨obj, h⟩

/-! ## The two variants side by side -/

theorem corresponds_deref (a : ThreadSafe.State) (b : NonThreadSafe.State)
    (h : Corresponds a b) (p : Option Nat) :
    ThreadSafe.deref_value a p = NonThreadSafe.deref_value b p := by
  cases p with
  | none => rfl
  | some q =>
    have e : (a.heap.map ThreadSafe.Singleton.value)[q]?
        = (b.heap.map NonThreadSafe.Singleton.value)[q]? := by rw [h.2.2]
    simpa [ThreadSafe.deref_value, NonThreadSafe.deref_value] using e

theorem corresponds_call (ok : Bool) (v : String) (a : ThreadSafe.State)
    (b : NonThreadSafe.State) (h : Corresponds a b) :
    (ThreadSafe.call ok v a).1 = (NonThreadSafe.call ok v b).1 ∧
    Corresponds (ThreadSafe.call ok v a).2 (NonThreadSafe.call ok v b).2 := by
  have hlen : a.heap.length = b.heap.length := by
    have := congrArg List.length h.2.2
    simpa using this
  cases hp : a.pinstance_ with
  | some p =>
    have hb : b.singleton_ = some p := by rw [← h.2.1, hp]
    simp only [ThreadSafe.call, NonThreadSafe.call, ThreadSafe.ts_GetInstance_of_some ok v a p hp,
      NonThreadSafe.nts_GetInstance_of_some ok v b p hb]
    exact ⟨by simp [corresponds_deref a b h], h⟩
  | none =>
    have hb : b.singleton_ = none := by rw [← h.2.1, hp]
    simp only [ThreadSafe.call, NonThreadSafe.call, ThreadSafe.ts_GetInstance_of_none ok v a hp h.1,
      NonThreadSafe.nts_GetInstance_of_none ok v b hb]
    cases ok
    · refine ⟨by simp, ?_⟩
      simp only [Bool.false_eq_true, if_false]
      exact ⟨rfl, hb.symm, h.2.2⟩
    · simp only [if_true]
      refine ⟨?_, rfl, by simp [hlen], by simp [h.2.2, ThreadSafe.Singleton.value,
        NonThreadSafe.Singleton.value]⟩
      simp [ThreadSafe.deref_value, NonThreadSafe.deref_value, hlen,
        ThreadSafe.Singleton.value, NonThreadSafe.Singleton.value]

theorem call_not_blocked (ok : Bool) (v : String) (b : NonThreadSafe.State) :
    (NonThreadSafe.call ok v b).1.outcome ≠ .blocked := by
  simp only [NonThreadSafe.call, NonThreadSafe.GetInstance]
  split
  · cases ok <;> simp [NonThreadSafe.new_Singleton]
  · simp

theorem corresponds_calls (cs : List (Bool × String)) :
    ∀ (a : ThreadSafe.State) (b : NonThreadSafe.State), Corresponds a b →
      (ThreadSafe.calls cs a).1 = (NonThreadSafe.calls cs b).1 ∧
      Corresponds (ThreadSafe.calls cs a).2 (NonThreadSafe.calls cs b).2 := by
  induction cs with
  | nil => intro a b h; exact ⟨rfl, h⟩
  | cons c rest ih =>
    intro a b h
    obtain ⟨ok, v⟩ := c
    have k := corresponds_call ok v a b h
    have nb := call_not_blocked ok v b
    have nb2 : (ThreadSafe.call ok v a).1.outcome ≠ .blocked := by rw [k.1]; exact nb
    have i := ih _ _ k.2
    simp only [ThreadSafe.calls, NonThreadSafe.calls]
    exact ⟨by simp [k.1, i.1], i.2⟩

/-- Claim C9 (sequential equivalence of the two variants): for every finite sequence of
calls (argument strings, each with the outcome of its construction should one be attempted),
the thread-safe and the non-thread-safe `GetInstance` run from their initial states give, call
by call, the same record (how the call ended and the pointer returned, the observed `value()`,
whether an object was constructed), one record per call, and end with the same static pointer
and the same stored values. -/
theorem sequential_equivalence (cs : List (Bool × String)) :
    (ThreadSafe.calls cs ThreadSafe.init).1 = (NonThreadSafe.calls cs NonThreadSafe.init).1 ∧
    (ThreadSafe.calls cs ThreadSafe.init).1.length = cs.length ∧
    (ThreadSafe.calls cs ThreadSafe.init).2.pinstance_
      = (NonThreadSafe.calls cs NonThreadSafe.init).2.singleton_ ∧
    (ThreadSafe.calls cs ThreadSafe.init).2.heap.map ThreadSafe.Singleton.value
      = (NonThreadSafe.calls cs NonThreadSafe.init).2.heap.map NonThreadSafe.Singleton.value := by
  have h := corresponds_calls cs ThreadSafe.init NonThreadSafe.init ⟨rfl, rfl, rfl⟩
  refine ⟨h.1, ?_, h.2.2.1, h.2.2.2⟩
  rw [h.1]
  clear h
  generalize NonThreadSafe.init = b
  induction cs generalizing b with
  | nil => rfl
  | cons c rest ih =>
    obtain ⟨ok, v⟩ := c
    have nb := call_not_blocked ok v b
    simp only [NonThreadSafe.calls]
    simp [ih]

/-! ## Interleavings of the thread-safe variant -/

theorem List.sum_map_set {α : Type} (f : α → Nat) (l : List α) (i : Nat) (x y : α)
    (h : l[i]? = some y) : ((l.set i x).map f).sum + f y = (l.map f).sum + f x := by
  induction l generalizing i with
  | nil => simp at h
  | cons a l ih =>
    cases i with
    | zero =>
      simp at h; subst h
      simp only [List.set_cons_zero, List.map_cons, List.sum_cons]; omega
    | succ i =>
      simp at h; have := ih i h
      simp only [List.set_cons_succ, List.map_cons, List.sum_cons]; omega

theorem List.le_sum_map {α : Type} (f : α → Nat) (l : List α) (i : Nat) (y : α)
    (h : l[i]? = some y) : f y ≤ (l.map f).sum := by
  induction l generalizing i with
  | nil => simp at h
  | cons a l ih =>
    cases i with
    | zero => simp at h; subst h; simp
    | succ i => simp at h; have := ih i h; simp; omega

theorem List.exists_of_sum_map_pos {α : Type} (f : α → Nat) (l : List α)
    (h : 0 < (l.map f).sum) : ∃ (i : Nat) (y : α), l[i]? = some y ∧ 0 < f y := by
  induction l with
  | nil => simp at h
  | cons a l ih =>
    by_cases ha : 0 < f a
    · exact ⟨0, a, by simp, ha⟩
    · have : 0 < (l.map f).sum := by simp at h ha; omega
      obtain ⟨i, y, hy, hf⟩ := ih this
      exact ⟨i + 1, y, by simpa using hy, hf⟩

theorem List.getElem?_set_same {α : Type} (l : List α) (i : Nat) (x y : α)
    (h : l[i]? = some y) : (l.set i x)[i]? = some x := by
  induction l generalizing i with
  | nil => simp at h
  | cons a l ih =>
    cases i with
    | zero => simp
    | succ i => simp at h; simpa using ih i h

theorem List.getElem?_set_other {α : Type} (l : List α) (i j : Nat) (x : α)
    (h : i ≠ j) : (l.set i x)[j]? = l[j]? := by
  induction l generalizing i j with
  | nil => simp
  | cons a l ih =>
    cases i with
    | zero =>
      cases j with
      | zero => exact absurd rfl h
      | succ j => simp
    | succ i =>
      cases j with
      | zero => simp
      | succ j => simpa using ih i j (fun e => h (by rw [e]))

theorem List.mem_of_getElem?_some {α : Type} (l : List α) (i : Nat) (y : α)
    (h : l[i]? = some y) : y ∈ l := by
  induction l generalizing i with
  | nil => simp at h
  | cons a l ih =>
    cases i with
    | zero => simp at h; subst h; simp
    | succ i => simp at h; exact List.mem_cons_of_mem _ (ih i h)

theorem List.map_set_same {α β : Type} (g : α → β) (l : List α) (i : Nat) (x y : α)
    (h : l[i]? = some y) (e : g x = g y) : (l.set i x).map g = l.map g := by
  induction l generalizing i with
  | nil => simp
  | cons a l ih =>
    cases i with
    | zero => simp at h; subst h; simp [e]
    | succ i => simp at h; simp [ih i h]

theorem List.all_of_set {α : Type} (P : α → Prop) (l : List α) (t : Nat) (x : α)
    (hall : ∀ (i : Nat) (y : α), l[i]? = some y → P y) (hx : P x) :
    ∀ (i : Nat) (y : α), (l.set t x)[i]? = some y → P y := by
  intro i y h
  by_cases e : t = i
  · subst e
    by_cases hlt : t < l.length
    · have : (l.set t x)[t]? = some x :=
        List.getElem?_set_same l t x l[t] (by simp [hlt])
      rw [this] at h
      simp at h
      exact h ▸ hx
    · have : (l.set t x)[t]? = none := by simp; omega
      rw [this] at h
      simp at h
  · rw [List.getElem?_set_other l t i x e] at h
    exact hall i y h

namespace ThreadSafe

theorem step_some (t : Nat) (w w1 : World) (h : step t w = some w1) :
    ∃ th pc1 s1 out1, w.threads[t]? = some th ∧
      exec th.value th.pc w.st w.out = some (pc1, s1, out1) ∧
      w1 = ⟨s1, w.threads.set t ⟨th.value, pc1⟩, out1⟩ := by
  unfold step at h
  split at h
  · simp at h
  · rename_i th hth
    split at h
    · simp at h
    · rename_i pc1 s1 out1 hex
      simp at h
      exact ⟨th, pc1, s1, out1, hth, hex, h.symm⟩

theorem threadOk_congr (s s1 : State) (th : Thread) (e : s1.pinstance_ = s.pinstance_)
    (h : ThreadOk s th) : ThreadOk s1 th := by
  unfold ThreadOk at *
  rw [e]
  exact h

/-- Mutual exclusion: two different threads do not both hold the lock. -/
theorem mutual_exclusion (ts : List Thread) (i j : Nat) (a b : Thread)
    (hc : csCount ts ≤ 1) (hi : ts[i]? = some a) (hj : ts[j]? = some b)
    (ha : a.pc.inCS = true) (hb : b.pc.inCS = true) : i = j := by
  by_contra hne
  have h1 := List.sum_map_set csFlag ts i ⟨a.value, .check1⟩ a hi
  have h2 := List.le_sum_map csFlag
    (ts.set i ⟨a.value, .check1⟩) j b (by rw [List.getElem?_set_other _ _ _ _ hne]; exact hj)
  have fa : csFlag a = 1 := by simp [csFlag, ha]
  have fb : csFlag b = 1 := by simp [csFlag, hb]
  have fc : csFlag ⟨a.value, .check1⟩ = 0 := rfl
  unfold csCount at hc
  omega

theorem inv_frame (args : List String) (w : World) (t : Nat) (v : String) (pc pc1 : Pc)
    (m1 : Mutex) (out1 : List String) (hI : Inv args w) (hth : w.threads[t]? = some ⟨v, pc⟩)
    (hcs : (if m1.locked then 1 else 0) + csFlag ⟨v, pc⟩
      = (if w.st.mutex_.locked then 1 else 0) + csFlag ⟨v, pc1⟩)
    (hnew : ThreadOk w.st ⟨v, pc1⟩)
    (hout : ∀ x ∈ out1, w.st.heap = [⟨x⟩])
    (hlen : out1.length + printedFlag ⟨v, pc⟩ = w.out.length + printedFlag ⟨v, pc1⟩) :
    Inv args ⟨⟨w.st.heap, w.st.pinstance_, m1⟩, w.threads.set t ⟨v, pc1⟩, out1⟩ := by
  have a := List.sum_map_set csFlag w.threads t ⟨v, pc1⟩ _ hth
  have b := List.sum_map_set printedFlag w.threads t ⟨v, pc1⟩ _ hth
  have c0 := hI.cs
  have l0 := hI.outLen
  unfold csCount at c0
  unfold printedCount at l0
  refine ⟨?_, ?_, ?_, hI.heap, hout, ?_⟩
  · dsimp only
    rw [List.map_set_same Thread.value _ t _ _ hth (by rfl)]; exact hI.vals
  · show (List.map csFlag (w.threads.set t ⟨v, pc1⟩)).sum = if m1.locked then 1 else 0
    omega
  · apply List.all_of_set
    · intro i y hy
      exact threadOk_congr w.st _ y rfl (hI.ok i y hy)
    · exact threadOk_congr w.st _ _ rfl hnew
  · show out1.length = (List.map printedFlag (w.threads.set t ⟨v, pc1⟩)).sum
    omega

theorem inv_construct (args : List String) (w : World) (t : Nat) (v : String) (hI : Inv args w)
    (hth : w.threads[t]? = some ⟨v, .construct⟩) :
    Inv args ⟨⟨w.st.heap ++ [⟨v⟩], some w.st.heap.length, w.st.mutex_⟩,
      w.threads.set t ⟨v, .release⟩, w.out⟩ := by
  have a := List.sum_map_set csFlag w.threads t ⟨v, .release⟩ _ hth
  have b := List.sum_map_set printedFlag w.threads t ⟨v, .release⟩ _ hth
  have c0 := hI.cs
  have l0 := hI.outLen
  unfold csCount at c0
  unfold printedCount at l0
  have hnull : w.st.pinstance_ = none := hI.ok t _ hth
  have hheap : w.st.heap = [] := by
    rcases hI.heap with h | h
    · exact h.2
    · rw [hnull] at h; simp at h
  have hle : csCount w.threads ≤ 1 := by
    unfold csCount; rw [c0]; split <;> omega
  have hv : v ∈ args := by
    rw [← hI.vals]
    have := List.mem_of_getElem?_some _ _ _ hth
    exact List.mem_map.mpr ⟨_, this, rfl⟩
  have f1 : csFlag ⟨v, .construct⟩ = 1 := rfl
  have f2 : csFlag ⟨v, .release⟩ = 1 := rfl
  have g1 : printedFlag ⟨v, .construct⟩ = 0 := rfl
  have g2 : printedFlag ⟨v, .release⟩ = 0 := rfl
  refine ⟨?_, ?_, ?_, ?_, ?_, ?_⟩
  · dsimp only
    rw [List.map_set_same Thread.value _ t _ _ hth (by rfl)]; exact hI.vals
  · show (List.map csFlag (w.threads.set t ⟨v, .release⟩)).sum
      = if w.st.mutex_.locked then 1 else 0
    omega
  · intro i y hy
    by_cases e : t = i
    · subst e
      rw [List.getElem?_set_same _ _ _ _ hth] at hy
      simp at hy
      subst hy
      simp [ThreadOk, hheap]
    · rw [List.getElem?_set_other _ _ _ _ e] at hy
      have old := hI.ok i y hy
      obtain ⟨yv, ypc⟩ := y
      cases ypc with
      | check1 => trivial
      | acquire => trivial
      | check2 => trivial
      | construct =>
        exact absurd (mutual_exclusion w.threads t i _ _ hle hth hy rfl rfl) e
      | release => simp [ThreadOk, hnull] at old
      | ret => simp [ThreadOk, hnull] at old
      | returned p => simp [ThreadOk, hnull] at old
      | printed p => simp [ThreadOk, hnull] at old
  · right
    exact ⟨by simp [hheap], v, hv, by simp [hheap]⟩
  · intro x hx
    have := hI.out x hx
    rw [hheap] at this
    simp at this
  · show w.out.length = (List.map printedFlag (w.threads.set t ⟨v, .release⟩)).sum
    omega

theorem heap_of_set (args : List String) (w : World) (hI : Inv args w)
    (h : w.st.pinstance_ ≠ none) :
    w.st.pinstance_ = some 0 ∧ ∃ v ∈ args, w.st.heap = [⟨v⟩] := by
  rcases hI.heap with g | g
  · exact absurd g.1 h
  · exact g

theorem inv_step (args : List String) (t : Nat) (w w1 : World) (hI : Inv args w)
    (h : step t w = some w1) :
    Inv args w1 ∧ remaining w1.threads < remaining w.threads := by
  obtain ⟨th, pc1, s1, out1, hth, hex, rfl⟩ := step_some t w w1 h
  obtain ⟨v, pc⟩ := th
  have hok := hI.ok t _ hth
  have hrem := List.sum_map_set Thread.stepsLeft w.threads t ⟨v, pc1⟩ _ hth
  have hlt : ∀ n m : Nat, Thread.stepsLeft ⟨v, pc1⟩ = n → Thread.stepsLeft ⟨v, pc⟩ = m → n < m →
      remaining (w.threads.set t ⟨v, pc1⟩) < remaining w.threads := by
    intro n m e1 e2 lt
    unfold remaining
    omega
  cases pc with
  | check1 =>
    by_cases hp : w.st.pinstance_ = none
    · simp [exec, hp] at hex
      obtain ⟨rfl, rfl, rfl⟩ := hex
      exact ⟨inv_frame args w t v _ _ w.st.mutex_ w.out hI hth (by simp [csFlag, Pc.inCS])
        trivial hI.out (by simp [printedFlag, Pc.hasPrinted]), hlt 6 7 rfl rfl (by omega)⟩
    · simp [exec, hp] at hex
      obtain ⟨rfl, rfl, rfl⟩ := hex
      exact ⟨inv_frame args w t v _ _ w.st.mutex_ w.out hI hth (by simp [csFlag, Pc.inCS])
        (heap_of_set args w hI hp).1 hI.out (by simp [printedFlag, Pc.hasPrinted]),
        hlt 2 7 rfl rfl (by omega)⟩
  | acquire =>
    by_cases hl : w.st.mutex_.locked = true
    · simp [exec, Mutex.lock, hl] at hex
    · simp [exec, Mutex.lock, hl] at hex
      obtain ⟨rfl, rfl, rfl⟩ := hex
      exact ⟨inv_frame args w t v _ _ _ w.out hI hth (by simp [csFlag, Pc.inCS, hl])
        trivial hI.out (by simp [printedFlag, Pc.hasPrinted]), hlt 5 6 rfl rfl (by omega)⟩
  | check2 =>
    by_cases hp : w.st.pinstance_ = none
    · simp [exec, hp] at hex
      obtain ⟨rfl, rfl, rfl⟩ := hex
      exact ⟨inv_frame args w t v _ _ w.st.mutex_ w.out hI hth (by simp [csFlag, Pc.inCS])
        hp hI.out (by simp [printedFlag, Pc.hasPrinted]), hlt 4 5 rfl rfl (by omega)⟩
    · simp [exec, hp] at hex
      obtain ⟨rfl, rfl, rfl⟩ := hex
      exact ⟨inv_frame args w t v _ _ w.st.mutex_ w.out hI hth (by simp [csFlag, Pc.inCS])
        (heap_of_set args w hI hp).1 hI.out (by simp [printedFlag, Pc.hasPrinted]),
        hlt 3 5 rfl rfl (by omega)⟩
  | construct =>
    simp [exec, new_Singleton] at hex
    obtain ⟨rfl, rfl, rfl⟩ := hex
    exact ⟨inv_construct args w t v hI hth, hlt 3 4 rfl rfl (by omega)⟩
  | release =>
    simp [exec, Mutex.unlock] at hex
    obtain ⟨rfl, rfl, rfl⟩ := hex
    have c0 := hI.cs
    have c1 := List.le_sum_map csFlag w.threads t _ hth
    have f1 : csFlag ⟨v, .release⟩ = 1 := rfl
    have hl : w.st.mutex_.locked = true := by
      by_contra hl
      simp [hl] at c0
      unfold csCount at c0
      omega
    exact ⟨inv_frame args w t v _ _ _ w.out hI hth (by simp [csFlag, Pc.inCS, hl])
      hok hI.out (by simp [printedFlag, Pc.hasPrinted]), hlt 2 3 rfl rfl (by omega)⟩
  | ret =>
    simp [exec] at hex
    obtain ⟨rfl, rfl, rfl⟩ := hex
    exact ⟨inv_frame args w t v _ _ w.st.mutex_ w.out hI hth (by simp [csFlag, Pc.inCS])
      ⟨hok, hok⟩ hI.out (by simp [printedFlag, Pc.hasPrinted]), hlt 1 2 rfl rfl (by omega)⟩
  | returned p =>
    obtain ⟨hp, h0⟩ := hok
    subst hp
    obtain ⟨_, x, _, hx⟩ := heap_of_set args w hI (by rw [h0]; simp)
    simp [exec, deref_value, hx] at hex
    obtain ⟨rfl, rfl, rfl⟩ := hex
    refine ⟨inv_frame args w t v _ _ w.st.mutex_ _ hI hth (by simp [csFlag, Pc.inCS])
      ⟨rfl, h0⟩ ?_ (by simp [printedFlag, Pc.hasPrinted]), hlt 0 1 rfl rfl (by omega)⟩
    intro y hy
    simp at hy
    rcases hy with hy | hy
    · exact hI.out y hy
    · rw [hy, hx]; rfl
  | printed p =>
    simp [exec] at hex

theorem inv_start (args : List String) : Inv args (start args) := by
  refine ⟨?_, ?_, ?_, Or.inl ⟨rfl, rfl⟩, ?_, ?_⟩
  · simp [start, Function.comp_def]
  · show csCount (args.map (fun v => ⟨v, .check1⟩)) = 0
    unfold csCount
    induction args with
    | nil => rfl
    | cons a l ih => simpa [csFlag, Pc.inCS] using ih
  · intro i th h
    have hm := List.mem_of_getElem?_some _ _ _ h
    simp only [start, List.mem_map] at hm
    obtain ⟨v, _, rfl⟩ := hm
    trivial
  · intro x hx
    simp [start] at hx
  · show 0 = printedCount (args.map (fun v => ⟨v, .check1⟩))
    unfold printedCount
    induction args with
    | nil => rfl
    | cons a l ih => simpa [printedFlag, Pc.hasPrinted] using ih

theorem remaining_start (args : List String) :
    remaining (start args).threads = 7 * args.length := by
  show remaining (args.map (fun v => ⟨v, .check1⟩)) = 7 * args.length
  unfold remaining
  induction args with
  | nil => rfl
  | cons a l ih =>
    simp only [List.map_cons, List.sum_cons, List.length_cons, ih]
    show 7 + 7 * l.length = 7 * (l.length + 1)
    omega

theorem inv_run (args : List String) (sched : List Nat) :
    ∀ (w w1 : World), Inv args w → run w sched = some w1 →
      Inv args w1 ∧ sched.length + remaining w1.threads ≤ remaining w.threads := by
  induction sched with
  | nil =>
    intro w w1 hI h
    simp [run] at h
    subst h
    exact ⟨hI, by simp⟩
  | cons t ts ih =>
    intro w w1 hI h
    simp only [run] at h
    split at h
    · simp at h
    · rename_i w2 h2
      have a := inv_step args t w w2 hI h2
      have b := ih w2 w1 a.1 h
      refine ⟨b.1, ?_⟩
      have := a.2
      have := b.2
      simp only [List.length_cons]
      omega

/-- A thread that is not waiting for a held mutex and has not ended can step. -/
theorem step_enabled (args : List String) (w : World) (hI : Inv args w) (t : Nat) (th : Thread)
    (hth : w.threads[t]? = some th) (hnp : th.pc.hasPrinted = false)
    (hfree : th.pc = .acquire → w.st.mutex_.locked = false) :
    ∃ w1, step t w = some w1 := by
  obtain ⟨v, pc⟩ := th
  have hok := hI.ok t _ hth
  unfold step
  rw [hth]
  cases pc with
  | check1 => simp [exec]
  | acquire => simp [exec, Mutex.lock, hfree rfl]
  | check2 => simp [exec]
  | construct => simp [exec, new_Singleton]
  | release => simp [exec]
  | ret => simp [exec]
  | returned p =>
    obtain ⟨hp, h0⟩ := hok
    subst hp
    obtain ⟨_, x, _, hx⟩ := heap_of_set args w hI (by rw [h0]; simp)
    simp [exec, deref_value, hx]
  | printed p => simp [Pc.hasPrinted] at hnp

/-- No deadlock: while some thread has not ended, some thread can step. -/
theorem progress (args : List String) (w : World) (hI : Inv args w)
    (h : ∃ th ∈ w.threads, th.pc.hasPrinted = false) : ∃ t w1, step t w = some w1 := by
  by_cases hl : w.st.mutex_.locked = true
  · have c0 := hI.cs
    rw [hl] at c0
    simp only [if_true] at c0
    obtain ⟨i, y, hy, hf⟩ := List.exists_of_sum_map_pos csFlag w.threads (by
      unfold csCount at c0; omega)
    have hcs : y.pc.inCS = true := by
      by_contra hn
      simp [csFlag, hn] at hf
    refine ⟨i, step_enabled args w hI i y hy ?_ ?_⟩
    · cases hpc : y.pc <;> simp [hpc, Pc.inCS, Pc.hasPrinted] at hcs ⊢
    · intro e; rw [e] at hcs; simp [Pc.inCS] at hcs
  · obtain ⟨th, hmem, hnp⟩ := h
    obtain ⟨i, hi⟩ := List.getElem?_of_mem hmem
    exact ⟨i, step_enabled args w hI i th hi hnp (fun _ => by simpa using hl)⟩

/-- Every interleaving can be continued until all threads have ended. -/
theorem completion (args : List String) : ∀ (n : Nat) (w : World), Inv args w →
    remaining w.threads ≤ n →
    ∃ more w1, run w more = some w1 ∧ ∀ th ∈ w1.threads, th.pc.hasPrinted = true := by
  intro n
  induction n with
  | zero =>
    intro w hI hn
    by_cases hall : ∀ th ∈ w.threads, th.pc.hasPrinted = true
    · exact ⟨[], w, rfl, hall⟩
    · have : ∃ th ∈ w.threads, th.pc.hasPrinted = false := by
        simpa using hall
      obtain ⟨t, w1, hs⟩ := progress args w hI this
      have := (inv_step args t w w1 hI hs).2
      omega
  | succ n ih =>
    intro w hI hn
    by_cases hall : ∀ th ∈ w.threads, th.pc.hasPrinted = true
    · exact ⟨[], w, rfl, hall⟩
    · have : ∃ th ∈ w.threads, th.pc.hasPrinted = false := by
        simpa using hall
      obtain ⟨t, w1, hs⟩ := progress args w hI this
      have a := inv_step args t w w1 hI hs
      obtain ⟨more, w2, hr, hp⟩ := ih w1 a.1 (by have := a.2; omega)
      exact ⟨t :: more, w2, by simp [run, hs, hr], hp⟩

theorem threads_length (args : List String) (w : World) (hI : Inv args w) :
    w.threads.length = args.length := by
  have := congrArg List.length hI.vals
  simpa using this

/-- Claim C1 (single construction under races): let `N >= 1` threads each call the thread-safe
`GetInstance` with their own argument, starting from `pinstance_ == nullptr` and a free mutex,
and let the scheduler interleave their atomic steps in any order. Then at every point of every
interleaving at most one `Singleton` has been constructed, no interleaving has more than `7 N`
steps, and the interleaving can be continued until all threads have ended (no deadlock). Once
every call has returned, exactly one `Singleton` has been constructed, from the argument of one
of the callers, `pinstance_` is its address, and every caller has returned that address. The
arguments need not be distinct. -/
theorem single_construction (args : List String) (hN : 1 ≤ args.length)
    (sched : List Nat) (w : World) (hrun : run (start args) sched = some w) :
    w.st.heap.length ≤ 1 ∧
    sched.length ≤ 7 * args.length ∧
    (∃ more w1, run w more = some w1 ∧ ∀ th ∈ w1.threads, th.pc.hasPrinted = true) ∧
    ((∀ th ∈ w.threads, th.pc.hasReturned = true) →
      w.threads.length = args.length ∧
      ∃ v ∈ args, w.st.heap = [⟨v⟩] ∧ w.st.pinstance_ = some 0 ∧
        ∀ th ∈ w.threads, th.pc.result = some (some 0)) := by
  have hr := inv_run args sched (start args) w (inv_start args) hrun
  have hI := hr.1
  have hb := hr.2
  rw [remaining_start] at hb
  refine ⟨?_, by omega, completion args _ w hI (le_refl _), fun hall => ?_⟩
  · rcases hI.heap with g | ⟨_, v, _, g⟩
    · rw [g.2]; simp
    · rw [g]; simp
  · have hlen := threads_length args w hI
    have hres : ∀ th ∈ w.threads, th.pc.result = some (some 0) ∧ w.st.pinstance_ = some 0 := by
      intro th hmem
      obtain ⟨i, hi⟩ := List.getElem?_of_mem hmem
      have hok := hI.ok i th hi
      have hret := hall th hmem
      obtain ⟨v, pc⟩ := th
      cases pc <;> simp [Pc.hasReturned] at hret
      · exact ⟨by simp [Pc.result, hok.1], hok.2⟩
      · exact ⟨by simp [Pc.result, hok.1], hok.2⟩
    have hne : w.threads ≠ [] := by
      intro e; rw [e] at hlen; simp at hlen; omega
    obtain ⟨th0, hth0⟩ := List.exists_mem_of_ne_nil _ hne
    have hp := (hres th0 hth0).2
    obtain ⟨_, v, hv, hheap⟩ := heap_of_set args w hI (by rw [hp]; simp)
    exact ⟨hlen, v, hv, hheap, hp, fun th hmem => (hres th hmem).1⟩

theorem single_construction_witness :
    run (start ["FOO", "BAR", "BAZ"]) [0, 1, 2, 1, 1, 1, 1, 1, 0, 0, 0, 0, 2, 2, 2, 2]
      = some ⟨⟨[⟨"BAR"⟩], some 0, ⟨false, 3⟩⟩,
          [⟨"FOO", .returned (some 0)⟩, ⟨"BAR", .returned (some 0)⟩,
           ⟨"BAZ", .returned (some 0)⟩], []⟩ ∧
    ∃ v ∈ ["FOO", "BAR", "BAZ"], [Singleton.mk "BAR"] = [⟨v⟩] ∧
      ∀ th ∈ [Thread.mk "FOO" (.returned (some 0)), ⟨"BAR", .returned (some 0)⟩,
          ⟨"BAZ", .returned (some 0)⟩], th.pc.result = some (some 0) := by
  have hrun : run (start ["FOO", "BAR", "BAZ"])
      [0, 1, 2, 1, 1, 1, 1, 1, 0, 0, 0, 0, 2, 2, 2, 2]
      = some ⟨⟨[⟨"BAR"⟩], some 0, ⟨false, 3⟩⟩,
          [⟨"FOO", .returned (some 0)⟩, ⟨"BAR", .returned (some 0)⟩,
           ⟨"BAZ", .returned (some 0)⟩], []⟩ := by decide
  obtain ⟨_, v, hv, hh, _, hres⟩ :=
    (single_construction ["FOO", "BAR", "BAZ"] (by decide) _ _ hrun).2.2.2 (by decide)
  exact ⟨hrun, v, hv, hh, hres⟩

theorem printedCount_of_all (ts : List Thread) (h : ∀ th ∈ ts, th.pc.hasPrinted = true) :
    printedCount ts = ts.length := by
  unfold printedCount
  induction ts with
  | nil => rfl
  | cons a l ih =>
    have ha := h a (by simp)
    have := ih (fun y hy => h y (by simp [hy]))
    simp only [List.map_cons, List.sum_cons, List.length_cons, this, printedFlag, ha, if_true]
    omega

/-- Claim C4 (the FOO/BAR scenario): in every interleaving of `ThreadFoo` and `ThreadBar`
started by `main` on the fresh thread-safe singleton, once both threads have printed, the two
printed values are equal, and they are both "FOO" or both "BAR"; every interleaving can be
continued until both threads have printed. -/
theorem foo_bar_same_value (sched : List Nat) (w : World) (hrun : run main sched = some w) :
    (∃ more w1, run w more = some w1 ∧ ∀ th ∈ w1.threads, th.pc.hasPrinted = true) ∧
    ((∀ th ∈ w.threads, th.pc.hasPrinted = true) →
      w.out = ["FOO", "FOO"] ∨ w.out = ["BAR", "BAR"]) := by
  have hI := (inv_run ["FOO", "BAR"] sched main w (inv_start ["FOO", "BAR"]) hrun).1
  refine ⟨completion _ _ w hI (le_refl _), fun hall => ?_⟩
  have hlen : w.out.length = 2 := by
    rw [hI.outLen, printedCount_of_all _ hall, threads_length _ w hI]
    rfl
  have hout := hI.out
  match hw : w.out, hlen with
  | [x, y], _ =>
    rw [hw] at hout
    have hx := hout x (by simp)
    have hy := hout y (by simp)
    have hxy : x = y := by
      rw [hx] at hy
      simpa using hy
    subst hxy
    rcases hI.heap with g | ⟨_, v, hv, g⟩
    · rw [g.2] at hx; simp at hx
    · rw [g] at hx
      simp at hx
      subst hx
      simp at hv
      rcases hv with rfl | rfl
      · exact Or.inl rfl
      · exact Or.inr rfl

theorem foo_bar_same_value_witness :
    run main [0, 0, 0, 0, 0, 0, 0, 1, 1, 1]
      = some ⟨⟨[⟨"FOO"⟩], some 0, ⟨false, 1⟩⟩,
          [⟨"FOO", .printed (some 0)⟩, ⟨"BAR", .printed (some 0)⟩], ["FOO", "FOO"]⟩ ∧
    run main [1, 0, 1, 1, 1, 1, 0, 0, 0, 0, 1, 0, 1]
      = some ⟨⟨[⟨"BAR"⟩], some 0, ⟨false, 2⟩⟩,
          [⟨"FOO", .printed (some 0)⟩, ⟨"BAR", .printed (some 0)⟩], ["BAR", "BAR"]⟩ ∧
    (["FOO", "FOO"] = ["FOO", "FOO"] ∨ ["FOO", "FOO"] = ["BAR", "BAR"]) := by
  have hrun : run main [0, 0, 0, 0, 0, 0, 0, 1, 1, 1]
      = some ⟨⟨[⟨"FOO"⟩], some 0, ⟨false, 1⟩⟩,
          [⟨"FOO", .printed (some 0)⟩, ⟨"BAR", .printed (some 0)⟩], ["FOO", "FOO"]⟩ := by
    decide
  exact ⟨hrun, by decide, (foo_bar_same_value _ _ hrun).2 (by decide)⟩

end ThreadSafe

/-! ## Interleavings of the non-thread-safe variant -/

namespace NonThreadSafe

/-- Claim C6 (baseline contrast): for the non-thread-safe variant there is an interleaving of
`ThreadFoo` and `ThreadBar`, started by `main` with `singleton_ == nullptr`, in which both
threads pass the null check before either stores, the constructor runs twice, the two calls
return different objects, and the threads print "FOO" and "BAR". -/
theorem baseline_race :
    ∃ (sched : List Nat) (w : World), run main sched = some w ∧
      (∀ th ∈ w.threads, ∃ p, th.pc = .printed p) ∧
      w.st.heap.length = 2 ∧
      w.threads.map Thread.pc = [.printed (some 0), .printed (some 1)] ∧
      deref_value w.st (some 0) = some "FOO" ∧
      deref_value w.st (some 1) = some "BAR" ∧
      w.out = ["FOO", "BAR"] := by
  refine ⟨[0, 1, 0, 0, 0, 1, 1, 1],
    ⟨⟨[⟨"FOO"⟩, ⟨"BAR"⟩], some 1⟩,
      [⟨"FOO", .printed (some 0)⟩, ⟨"BAR", .printed (some 1)⟩], ["FOO", "BAR"]⟩,
    by decide, ?_, rfl, rfl, by decide, by decide, rfl⟩
  intro th hth
  simp at hth
  rcases hth with rfl | rfl
  · exact ⟨_, rfl⟩
  · exact ⟨_, rfl⟩

end NonThreadSafe

/-! ## The mutex of the thread-safe variant -/

namespace ThreadSafe

theorem GetInstance_eq_lockedSection (ok : Bool) (v : String) (s : State) :
    GetInstance ok v s =
      if s.pinstance_ = none then lockedSection ok v s else (.returned s.pinstance_, s) := rfl

theorem lockedSection_free (ok : Bool) (v : String) (s : State)
    (hfree : s.mutex_.locked = false) :
    lockedSection ok v s =
      match s.pinstance_ with
      | some p => (.returned (some p), ⟨s.heap, some p, ⟨false, s.mutex_.acquisitions + 1⟩⟩)
      | none =>
        if ok then (.returned (some s.heap.length),
            ⟨s.heap ++ [⟨v⟩], some s.heap.length, ⟨false, s.mutex_.acquisitions + 1⟩⟩)
        else (.threw, ⟨s.heap, none, ⟨false, s.mutex_.acquisitions + 1⟩⟩) := by
  cases hp : s.pinstance_ <;> cases ok <;>
    simp [lockedSection, hp, hfree, Mutex.lock, Mutex.unlock, new_Singleton]

theorem exec_acquisitions (v : String) (pc pc1 : Pc) (s s1 : State) (out out1 : List String)
    (h : exec v pc s out = some (pc1, s1, out1)) :
    (pc = .acquire ∧ s1.mutex_.acquisitions = s.mutex_.acquisitions + 1) ∨
    (pc ≠ .acquire ∧ s1.mutex_.acquisitions = s.mutex_.acquisitions) := by
  cases pc with
  | check1 => simp [exec] at h; obtain ⟨_, rfl, _⟩ := h; simp
  | acquire =>
    by_cases hl : s.mutex_.locked = true
    · simp [exec, Mutex.lock, hl] at h
    · simp [exec, Mutex.lock, hl] at h; obtain ⟨_, rfl, _⟩ := h; simp
  | check2 => simp [exec] at h; obtain ⟨_, rfl, _⟩ := h; simp
  | construct => simp [exec, new_Singleton] at h; obtain ⟨_, rfl, _⟩ := h; simp
  | release => simp [exec, Mutex.unlock] at h; obtain ⟨_, rfl, _⟩ := h; simp
  | ret => simp [exec] at h; obtain ⟨_, rfl, _⟩ := h; simp
  | returned p =>
    simp only [exec] at h
    split at h
    · simp at h
    · simp at h; obtain ⟨_, rfl, _⟩ := h; simp
  | printed p => simp [exec] at h

/-- Claim C11 (lock-free fast path): a call of the thread-safe `GetInstance` that comes back
(returns or throws) has acquired the mutex exactly once if `pinstance_` was null at the first,
unlocked check, and not at all otherwise. A call made when `pinstance_` is non-null never
blocks and leaves the mutex state (held or not, number of acquisitions) unchanged, whoever
holds the mutex. A call that finds `pinstance_` null while the mutex is held waits at the
acquisition and changes nothing. In the step model the first check sends the thread to the
acquisition exactly when `pinstance_` is null, and the acquisition is the only step that
raises the count. -/
theorem lock_free_fast_path (ok : Bool) (v : String) (s : State) :
    ((GetInstance ok v s).1 ≠ .blocked →
      ((GetInstance ok v s).2.mutex_.acquisitions = s.mutex_.acquisitions + 1 ↔
        s.pinstance_ = none) ∧
      ((GetInstance ok v s).2.mutex_.acquisitions = s.mutex_.acquisitions ↔
        s.pinstance_ ≠ none)) ∧
    (s.pinstance_ ≠ none →
      (GetInstance ok v s).2.mutex_ = s.mutex_ ∧ (GetInstance ok v s).1 ≠ .blocked) ∧
    (s.pinstance_ = none → s.mutex_.locked = true → GetInstance ok v s = (.blocked, s)) ∧
    (∀ out, exec v .check1 s out =
      some (if s.pinstance_ = none then .acquire else .ret, s, out)) ∧
    (∀ pc pc1 s1 out out1, exec v pc s out = some (pc1, s1, out1) →
      (pc = .acquire ∧ s1.mutex_.acquisitions = s.mutex_.acquisitions + 1) ∨
      (pc ≠ .acquire ∧ s1.mutex_.acquisitions = s.mutex_.acquisitions)) := by
  refine ⟨?_, ?_, ?_, fun out => rfl, fun pc pc1 s1 out out1 h =>
    exec_acquisitions v pc pc1 s s1 out out1 h⟩
  · intro hnb
    cases hp : s.pinstance_ with
    | some p =>
      rw [ts_GetInstance_of_some ok v s p hp]
      simp
    | none =>
      by_cases hl : s.mutex_.locked = true
      · exfalso
        apply hnb
        simp [GetInstance, hp, Mutex.lock, hl]
      · rw [ts_GetInstance_of_none ok v s hp (by simpa using hl)]
        cases ok <;> simp
  · intro hp
    obtain ⟨p, hp1⟩ := Option.ne_none_iff_exists'.mp hp
    rw [ts_GetInstance_of_some ok v s p hp1]
    simp
  · intro hp hl
    simp [GetInstance, hp, Mutex.lock, hl]

theorem lock_free_fast_path_witness :
    (GetInstance true "BAR" ⟨[⟨"FOO"⟩], some 0, ⟨true, 5⟩⟩).2.mutex_ = ⟨true, 5⟩ ∧
    (GetInstance true "BAR" ⟨[⟨"FOO"⟩], some 0, ⟨true, 5⟩⟩).1 ≠ .blocked ∧
    ((GetInstance true "FOO" init).2.mutex_.acquisitions = init.mutex_.acquisitions + 1 ↔
      init.pinstance_ = none) :=
  have a := (lock_free_fast_path true "BAR" ⟨[⟨"FOO"⟩], some 0, ⟨true, 5⟩⟩).2.1 (by decide)
  have b := ((lock_free_fast_path true "FOO" init).1 (by decide)).1
  ⟨a.1, a.2, b⟩

/-- Claim C12 (lock released on every exit path): a call of the thread-safe `GetInstance`
that starts with the mutex free comes back with the mutex free, and so does the locked part
of the call run on any state in which the mutex is free when the caller asks for it. Path by
path: on the fast path the mutex is not touched; when the re-check under the lock finds a
non-null `pinstance_` the lock is released and that pointer returned; after a successful
construction the lock is released; when the construction throws the lock is released as the
exception leaves. In the step model a caller that asks for the free lock runs to its return
with the mutex free again. -/
theorem lock_released (ok : Bool) (v : String) (s : State) (hfree : s.mutex_.locked = false) :
    (GetInstance ok v s).2.mutex_.locked = false ∧
    (GetInstance ok v s).1 ≠ .blocked ∧
    (lockedSection ok v s).2.mutex_.locked = false ∧
    (lockedSection ok v s).1 ≠ .blocked ∧
    (∀ p, s.pinstance_ = some p → GetInstance ok v s = (.returned (some p), s)) ∧
    (∀ p, s.pinstance_ = some p → lockedSection ok v s =
      (.returned (some p), ⟨s.heap, some p, ⟨false, s.mutex_.acquisitions + 1⟩⟩)) ∧
    (s.pinstance_ = none → lockedSection true v s =
      (.returned (some s.heap.length),
        ⟨s.heap ++ [⟨v⟩], some s.heap.length, ⟨false, s.mutex_.acquisitions + 1⟩⟩)) ∧
    (s.pinstance_ = none → lockedSection false v s =
      (.threw, ⟨s.heap, none, ⟨false, s.mutex_.acquisitions + 1⟩⟩)) ∧
    (s.pinstance_ = none → GetInstance ok v s = lockedSection ok v s) ∧
    (∃ p s1, solo 6 v .acquire s = some (p, s1) ∧ s1.mutex_.locked = false ∧
      lockedSection true v s = (.returned p, s1)) := by
  have hls := lockedSection_free ok v s hfree
  have hge := GetInstance_eq_lockedSection ok v s
  refine ⟨?_, ?_, ?_, ?_, fun p hp => ts_GetInstance_of_some ok v s p hp, ?_, ?_, ?_, ?_, ?_⟩
  · cases hp : s.pinstance_ with
    | some p => rw [ts_GetInstance_of_some ok v s p hp]; exact hfree
    | none => rw [hge, hls, hp]; cases ok <;> simp
  · cases hp : s.pinstance_ with
    | some p => rw [ts_GetInstance_of_some ok v s p hp]; simp
    | none => rw [hge, hls, hp]; cases ok <;> simp
  · rw [hls]; cases hp : s.pinstance_ <;> cases ok <;> simp
  · rw [hls]; cases hp : s.pinstance_ <;> cases ok <;> simp
  · intro p hp; rw [hls, hp]
  · intro hp; rw [lockedSection_free true v s hfree, hp]; simp
  · intro hp; rw [lockedSection_free false v s hfree, hp]; simp
  · intro hp; rw [hge, hp]; simp
  · rw [lockedSection_free true v s hfree]
    cases hp : s.pinstance_ with
    | some p =>
      exact ⟨some p, ⟨s.heap, some p, ⟨false, s.mutex_.acquisitions + 1⟩⟩,
        by simp [solo, exec, hp, hfree, Mutex.lock, Mutex.unlock], rfl, rfl⟩
    | none =>
      exact ⟨some s.heap.length,
        ⟨s.heap ++ [⟨v⟩], some s.heap.length, ⟨false, s.mutex_.acquisitions + 1⟩⟩,
        by simp [solo, exec, hp, hfree, Mutex.lock, Mutex.unlock, new_Singleton], rfl, by simp⟩

theorem lock_released_witness :
    (GetInstance false "FOO" init).2.mutex_.locked = false ∧
    (lockedSection true "BAR" ⟨[⟨"FOO"⟩], some 0, ⟨false, 1⟩⟩).2.mutex_.locked = false ∧
    lockedSection true "BAR" ⟨[⟨"FOO"⟩], some 0, ⟨false, 1⟩⟩ =
      (.returned (some 0), ⟨[⟨"FOO"⟩], some 0, ⟨false, 2⟩⟩) :=
  have a := lock_released false "FOO" init rfl
  have b := lock_released true "BAR" ⟨[⟨"FOO"⟩], some 0, ⟨false, 1⟩⟩ rfl
  ⟨a.1, b.2.2.1, b.2.2.2.2.2.1 0 rfl⟩

end ThreadSafe

/-! ## Memento -/

namespace Memento

theorem Undo_concat (oks : List Bool) (hok : oks.head? ≠ some false) (o : Originator)
    (base : List ConcreteMemento) (m : ConcreteMemento) :
    Undo oks ⟨o, base ++ [m]⟩ = ⟨⟨m.state_⟩, base⟩ := by
  cases oks with
  | nil => simp [Undo, Originator.Restore, ConcreteMemento.state]
  | cons ok rest =>
    cases ok with
    | false => simp at hok
    | true => simp [Undo, Originator.Restore, ConcreteMemento.state]

theorem Undo_nil (oks : List Bool) (o : Originator) : Undo oks ⟨o, []⟩ = ⟨o, []⟩ := by
  cases oks <;> simp [Undo]

theorem undos_top (okss : List (List Bool)) :
    ∀ (top base : List ConcreteMemento) (o : Originator),
      (∀ oks ∈ okss, oks.head? ≠ some false) → top.length = okss.length → okss ≠ [] →
      ∃ m, top.head? = some m ∧ undos okss ⟨o, base ++ top⟩ = ⟨⟨m.state_⟩, base⟩ := by
  induction okss with
  | nil => intro top base o _ _ h; exact absurd rfl h
  | cons oks rest ih =>
    intro top base o hok hlen _
    rcases List.eq_nil_or_concat top with e | ⟨top1, m, e⟩
    · subst e; simp at hlen
    · rw [List.concat_eq_append] at e
      subst e
      have hl : top1.length = rest.length := by simpa using hlen
      have hu : Undo oks ⟨o, base ++ (top1 ++ [m])⟩ = ⟨⟨m.state_⟩, base ++ top1⟩ := by
        rw [← List.append_assoc]
        exact Undo_concat oks (hok oks (by simp)) o (base ++ top1) m
      simp only [undos, hu]
      cases rest with
      | nil =>
        have : top1 = [] := List.length_eq_zero.mp hl
        subst this
        exact ⟨m, by simp, by simp [undos]⟩
      | cons oks2 rest2 =>
        obtain ⟨m1, hm1, hr⟩ := ih top1 base ⟨m.state_⟩
          (fun x hx => hok x (List.mem_cons_of_mem _ hx)) hl (by simp)
        refine ⟨m1, ?_, hr⟩
        cases top1 with
        | nil => simp at hm1
        | cons a t => simpa using hm1

theorem steps_mementos (acts : List Step) : ∀ (s : State),
    (steps acts s).mementos_.map ConcreteMemento.state
      = s.mementos_.map ConcreteMemento.state ++ statesAtBackups acts s.originator ∧
    ∃ added, (steps acts s).mementos_ = s.mementos_ ++ added ∧
      added.length = (statesAtBackups acts s.originator).length := by
  induction acts with
  | nil => intro s; exact ⟨by simp [steps, statesAtBackups], [], by simp [steps], rfl⟩
  | cons a rest ih =>
    intro s
    cases a with
    | Backup now =>
      obtain ⟨h1, added, h2, h3⟩ := ih (Backup now s)
      refine ⟨?_, (s.originator.Save now) :: added, ?_, ?_⟩
      · simp only [steps, Step.apply, h1, statesAtBackups]
        simp [Backup, Originator.Save, new_ConcreteMemento, ConcreteMemento.state]
      · simp only [steps, Step.apply, h2]
        simp [Backup]
      · simp only [statesAtBackups, List.length_cons, h3]
        rfl
    | DoSomething rand =>
      obtain ⟨h1, added, h2, h3⟩ := ih { s with originator := s.originator.DoSomething rand }
      exact ⟨by simpa [steps, Step.apply, statesAtBackups] using h1, added,
        by simpa [steps, Step.apply] using h2, by simpa [statesAtBackups] using h3⟩

end Memento

namespace Memento

theorem undos_take (okss : List (List Bool)) (hok : ∀ oks ∈ okss, oks.head? ≠ some false)
    (h1 : 1 ≤ okss.length) (o : Originator) (hist : List ConcreteMemento)
    (hk : okss.length ≤ hist.length) :
    ∃ m, hist[hist.length - okss.length]? = some m ∧
      undos okss ⟨o, hist⟩ = ⟨⟨m.state_⟩, hist.take (hist.length - okss.length)⟩ := by
  have hne : okss ≠ [] := by
    intro e; rw [e] at h1; simp at h1
  have hlen : (hist.drop (hist.length - okss.length)).length = okss.length := by
    simp; omega
  obtain ⟨m, hm, hu⟩ := undos_top okss (hist.drop (hist.length - okss.length))
    (hist.take (hist.length - okss.length)) o hok hlen hne
  rw [List.take_append_drop] at hu
  refine ⟨m, ?_, hu⟩
  rw [← hm, List.head?_drop]

/-- Claim C13 (memento round trip, last in first out): start from any originator and any
caretaker history, make any sequence of `Backup()` and `DoSomething()` calls, of which `n` are
backups capturing the originator states `s1, ..., sn`, and then call `Undo()` `k` times with
`1 <= k <= n`, every `Restore` succeeding. Then the backups have appended `n` mementos to the
history, the undos have removed exactly the last `k` mementos, and the originator's state is
`s(n-k+1)`. In particular a `Backup()`, any number of `DoSomething()` calls and one `Undo()`
give back the state and the history held at the backup. -/
theorem memento_round_trip (s : State) (acts : List Step) (okss : List (List Bool))
    (hok : ∀ oks ∈ okss, oks.head? ≠ some false)
    (h1 : 1 ≤ okss.length)
    (hn : okss.length ≤ (statesAtBackups acts s.originator).length) :
    (steps acts s).mementos_.length
      = s.mementos_.length + (statesAtBackups acts s.originator).length ∧
    (undos okss (steps acts s)).mementos_
      = (steps acts s).mementos_.take ((steps acts s).mementos_.length - okss.length) ∧
    (statesAtBackups acts s.originator)[(statesAtBackups acts s.originator).length
        - okss.length]? = some (undos okss (steps acts s)).originator.state_ ∧
    (∀ (now : String) (rands : List (Nat → Nat)) (oks : List Bool), oks.head? ≠ some false →
      Undo oks (steps (.Backup now :: rands.map .DoSomething) s) = s) := by
  obtain ⟨hmap, added, hadd, hlen⟩ := steps_mementos acts s
  have hl : (steps acts s).mementos_.length
      = s.mementos_.length + (statesAtBackups acts s.originator).length := by
    rw [hadd, List.length_append, hlen]
  have hstates : added.map ConcreteMemento.state = statesAtBackups acts s.originator := by
    rw [hadd, List.map_append] at hmap
    exact List.append_cancel_left hmap
  obtain ⟨m, hm, hu⟩ := undos_take okss hok h1 (steps acts s).originator
    (steps acts s).mementos_ (by omega)
  have hu2 : undos okss (steps acts s) = ⟨⟨m.state_⟩,
      (steps acts s).mementos_.take ((steps acts s).mementos_.length - okss.length)⟩ := hu
  refine ⟨hl, by rw [hu2], ?_, ?_⟩
  · rw [hu2, ← hstates]
    rw [hadd] at hm
    have hidx : (s.mementos_ ++ added).length - okss.length
        = s.mementos_.length + (added.length - okss.length) := by
      rw [List.length_append]; omega
    rw [hidx, List.getElem?_append_right (by omega)] at hm
    have : s.mementos_.length + (added.length - okss.length) - s.mementos_.length
        = added.length - okss.length := by omega
    rw [this] at hm
    rw [List.length_map, List.getElem?_map, hm]
    rfl
  · intro now rands oks hoks
    have hsteps : ∀ (rs : List (Nat → Nat)) (t : State),
        (steps (rs.map .DoSomething) t).mementos_ = t.mementos_ := by
      intro rs
      induction rs with
      | nil => intro t; rfl
      | cons r rest ih => intro t; simp only [List.map_cons, steps, Step.apply, ih]
    have e : steps (.Backup now :: rands.map .DoSomething) s
        = ⟨(steps (.Backup now :: rands.map .DoSomething) s).originator,
            s.mementos_ ++ [⟨s.originator.state_, now⟩]⟩ := by
      have := hsteps rands (Backup now s)
      simp only [steps, Step.apply]
      rw [← show (steps (rands.map .DoSomething) (Backup now s)).mementos_
        = s.mementos_ ++ [⟨s.originator.state_, now⟩] from this]
    rw [e, Undo_concat oks hoks]

theorem memento_round_trip_witness :
    (undos [[], [true]] (steps [.Backup "t1", .DoSomething (fun i => i), .Backup "t2",
        .DoSomething (fun i => 2 * i), .Backup "t3", .DoSomething (fun i => 3 * i)]
        ⟨⟨"Super-duper-super-puper-super."⟩, []⟩)).mementos_
      = [⟨"Super-duper-super-puper-super.", "t1"⟩] ∧
    some (undos [[], [true]] (steps [.Backup "t1", .DoSomething (fun i => i), .Backup "t2",
        .DoSomething (fun i => 2 * i), .Backup "t3", .DoSomething (fun i => 3 * i)]
        ⟨⟨"Super-duper-super-puper-super."⟩, []⟩)).originator.state_
      = some "0123456789ABCDEFGHIJKLMNOPQRST" := by
  have h := memento_round_trip ⟨⟨"Super-duper-super-puper-super."⟩, []⟩
    [.Backup "t1", .DoSomething (fun i => i), .Backup "t2",
      .DoSomething (fun i => 2 * i), .Backup "t3", .DoSomething (fun i => 3 * i)]
    [[], [true]] (by decide) (by decide) (by decide)
  refine ⟨?_, ?_⟩
  · rw [h.2.1]; decide
  · rw [← h.2.2.1]; decide

/-- Claim C17 (undo on an empty history): for a caretaker whose memento list is empty and any
originator state, `Undo()` returns at once, whatever a `Restore` would have done: the
originator's state is unchanged and the memento list is still empty. -/
theorem Undo_empty (oks : List Bool) (o : Originator) :
    Undo oks ⟨o, []⟩ = ⟨o, []⟩ ∧
    (Undo oks ⟨o, []⟩).originator.state_ = o.state_ ∧
    (Undo oks ⟨o, []⟩).mementos_ = [] := by
  rw [Undo_nil]
  exact ⟨rfl, rfl, rfl⟩

end Memento

/-! ## Chain of Responsibility -/

namespace ChainOfResponsibility

theorem Handle_of_chain (heap : List AbstractHandler) (r : String) (fuel : Nat) :
    ∀ (h : Nat) (ks : List Kind), chain fuel heap (some h) = some ks →
      ∀ fuel2, ks.length ≤ fuel2 → Handle fuel2 heap h r = some (firstReply ks r) := by
  induction fuel with
  | zero => intro h ks hc; simp [chain] at hc
  | succ fuel ih =>
    intro h ks hc fuel2 hf
    simp only [chain] at hc
    split at hc
    · simp at hc
    · rename_i obj hobj
      split at hc
      · simp at hc
      · rename_i ks1 hks1
        simp at hc
        subst hc
        cases fuel2 with
        | zero => simp at hf
        | succ f2 =>
          have hf2 : ks1.length ≤ f2 := by simpa using hf
          have hbase : (match obj.next_handler_ with
              | some next => Handle f2 heap next r
              | none => some "") = some (firstReply ks1 r) := by
            cases hn : obj.next_handler_ with
            | none =>
              rw [hn] at hks1
              simp [chain] at hks1
              subst hks1
              rfl
            | some next =>
              rw [hn] at hks1
              exact ih next ks1 hks1 f2 hf2
          have e1 : "Monkey" ++ ": I'll eat the " = "Monkey: I'll eat the " := by decide
          have e2 : "Squirrel" ++ ": I'll eat the " = "Squirrel: I'll eat the " := by decide
          have e3 : "Dog" ++ ": I'll eat the " = "Dog: I'll eat the " := by decide
          simp only [Handle, hobj, hbase]
          cases hk : obj.kind <;> simp only [firstReply, Kind.food, Kind.animal, e1, e2, e3] <;>
            split <;> rfl

/-- Claim C14 (dispatch along the chain): when the chain of handlers from `h` along
`next_handler_` ends in a null pointer (it is acyclic), `Handle(r)` on `h` returns, and the
result is the reply of the first handler at or after `h`, in chain order, that recognises `r`
(Monkey "Banana", Squirrel "Nut", Dog "MeatBall"; the reply is the name, ": I'll eat the ",
the request and ".\n"), and the empty string when no handler from `h` on recognises `r`. On
the chain Monkey > Squirrel > Dog that `main` builds the result is non-empty exactly for
"Banana", "Nut" and "MeatBall", and from Squirrel on "Banana" yields the empty string. -/
theorem chain_dispatch :
    (∀ (heap : List AbstractHandler) (h fuel : Nat) (ks : List Kind),
      chain fuel heap (some h) = some ks →
      ∀ (r : String) (fuel2 : Nat), ks.length ≤ fuel2 →
        Handle fuel2 heap h r = some (firstReply ks r)) ∧
    main = some ([⟨.MonkeyHandler, some 1⟩, ⟨.SquirrelHandler, some 2⟩, ⟨.DogHandler, none⟩],
      0, 1, 2) ∧
    (∀ r : String, ∃ x,
      Handle 3 [⟨.MonkeyHandler, some 1⟩, ⟨.SquirrelHandler, some 2⟩, ⟨.DogHandler, none⟩] 0 r
        = some x ∧
      (x ≠ "" ↔ r = "Banana" ∨ r = "Nut" ∨ r = "MeatBall")) ∧
    Handle 3 [⟨.MonkeyHandler, some 1⟩, ⟨.SquirrelHandler, some 2⟩, ⟨.DogHandler, none⟩] 1
      "Banana" = some "" := by
  refine ⟨fun heap h fuel ks hc r fuel2 hf => Handle_of_chain heap r fuel h ks hc fuel2 hf,
    by decide, fun r => ?_, by decide⟩
  have hc : chain 3 [⟨.MonkeyHandler, some 1⟩, ⟨.SquirrelHandler, some 2⟩, ⟨.DogHandler, none⟩]
      (some 0) = some [.MonkeyHandler, .SquirrelHandler, .DogHandler] := by decide
  refine ⟨_, Handle_of_chain _ r 3 0 _ hc 3 (by decide), ?_⟩
  by_cases h1 : r = "Banana"
  · subst h1; decide
  · by_cases h2 : r = "Nut"
    · subst h2; decide
    · by_cases h3 : r = "MeatBall"
      · subst h3; decide
      · simp [firstReply, Kind.food, h1, h2, h3]

theorem chain_dispatch_witness :
    chain 2 [⟨.MonkeyHandler, some 1⟩, ⟨.SquirrelHandler, some 2⟩, ⟨.DogHandler, none⟩]
      (some 1) = some [.SquirrelHandler, .DogHandler] ∧
    Handle 2 [⟨.MonkeyHandler, some 1⟩, ⟨.SquirrelHandler, some 2⟩, ⟨.DogHandler, none⟩] 1
      "MeatBall" = some "Dog: I'll eat the MeatBall.\n" := by
  have hc : chain 2
      [⟨.MonkeyHandler, some 1⟩, ⟨.SquirrelHandler, some 2⟩, ⟨.DogHandler, none⟩]
      (some 1) = some [.SquirrelHandler, .DogHandler] := by decide
  refine ⟨hc, ?_⟩
  rw [chain_dispatch.1 _ 1 2 _ hc "MeatBall" 2 (by decide)]
  decide

end ChainOfResponsibility

/-! ## Composite: the text `Operation` returns -/

namespace Composite

theorem Operation_loop_format (op : Nat → Option String) (back : Option Nat) :
    ∀ (cs : List Nat) (rs : List String) (acc : String),
      List.Forall₂ (fun c r => op c = some r) cs rs →
      (∀ c ∈ cs.dropLast, some c ≠ back) → (cs ≠ [] → cs.getLast? = back) →
      Operation_loop op back cs acc = some (acc ++ joinPlus rs) := by
  intro cs
  induction cs with
  | nil =>
    intro rs acc h _ _
    cases h
    simp [Operation_loop, joinPlus]
  | cons c rest ih =>
    intro rs acc h hd hl
    cases h with
    | cons hc hrest =>
      rename_i r rs1
      cases rest with
      | nil =>
        cases hrest
        have hb : some c = back := by simpa using hl (by simp)
        simp [Operation_loop, hc, hb, joinPlus]
      | cons c2 rest2 =>
        cases hrest with
        | cons hc2 hrest2 =>
          rename_i r2 rs2
          have hne : some c ≠ back := hd c (by simp [List.dropLast])
          have hi := ih (r2 :: rs2) (acc ++ (r ++ "+")) (List.Forall₂.cons hc2 hrest2)
            (fun x hx => hd x (by simp [List.dropLast] at hx ⊢; exact Or.inr hx))
            (fun _ => by
              have := hl (by simp)
              simpa [List.getLast?_cons_cons] using this)
          have hstep : Operation_loop op back (c :: c2 :: rest2) acc
              = Operation_loop op back (c2 :: rest2) (acc ++ (r ++ "+")) := by
            rw [Operation_loop]
            simp only [hc, hne, if_false]
          rw [hstep, hi]
          simp [joinPlus, String.append_assoc]

/-- The format of `Operation` where it holds: a `Leaf` returns "Leaf"; a `Composite` whose
last child pointer does not occur earlier in its child list returns "Branch(", the results of
its children with one "+" between consecutive ones, and ")". The tree `main` builds gives
"Branch(Branch(Leaf+Leaf)+Branch(Leaf))". -/
theorem Operation_format (fuel : Nat) (heap : List Component) (self : Nat) :
    (∀ p, heap[self]? = some (.Leaf p) → Operation (fuel + 1) heap self = some "Leaf") ∧
    (∀ p cs rs, heap[self]? = some (.Composite p cs) →
      List.Forall₂ (fun c r => Operation fuel heap c = some r) cs rs →
      (∀ c ∈ cs.dropLast, some c ≠ cs.getLast?) →
      Operation (fuel + 1) heap self = some ("Branch(" ++ joinPlus rs ++ ")")) ∧
    (∃ h tree, main = some (h, tree) ∧
      Operation 3 h tree = some "Branch(Branch(Leaf+Leaf)+Branch(Leaf))") := by
  refine ⟨fun p hp => by simp [Operation, hp], fun p cs rs hp hrs hd => ?_, ?_⟩
  · have := Operation_loop_format (Operation fuel heap) cs.getLast? cs rs "" hrs hd (fun _ => rfl)
    simp [Operation, hp, this]
  · exact ⟨[.Leaf none, .Composite none [2, 6], .Composite (some 1) [3, 4], .Leaf (some 2),
      .Leaf (some 2), .Leaf (some 6), .Composite (some 1) [5]], 1, by decide, by decide⟩

/-- Claim C15 (format of `Composite::Operation`), evaluated where the code departs from it:
a `Composite` to which the same `Leaf` has been added twice has the child list `c1, c2` with
both entries that leaf; each child returns "Leaf", the format of the claim is
"Branch(Leaf+Leaf)", and `Operation()` returns "Branch(LeafLeaf)", because the test
`c == children_.back()` holds for the first entry as well. With the child list `a, b, a` it
returns "Branch(LeafLeaf+Leaf)". -/
theorem Operation_duplicate_child :
    run [.Add 0 1, .Add 0 1] [.Composite none [], .Leaf none]
      = some [.Composite none [1, 1], .Leaf (some 0)] ∧
    Operation 1 [.Composite none [1, 1], .Leaf (some 0)] 1 = some "Leaf" ∧
    "Branch(" ++ joinPlus ["Leaf", "Leaf"] ++ ")" = "Branch(Leaf+Leaf)" ∧
    Operation 2 [.Composite none [1, 1], .Leaf (some 0)] 0 = some "Branch(LeafLeaf)" ∧
    Operation 2 [.Composite none [1, 1], .Leaf (some 0)] 0
      ≠ some ("Branch(" ++ joinPlus ["Leaf", "Leaf"] ++ ")") ∧
    run [.Add 0 1, .Add 0 2, .Add 0 1] [.Composite none [], .Leaf none, .Leaf none]
      = some [.Composite none [1, 2, 1], .Leaf (some 0), .Leaf (some 0)] ∧
    Operation 2 [.Composite none [1, 2, 1], .Leaf (some 0), .Leaf (some 0)] 0
      = some "Branch(LeafLeaf+Leaf)" := by
  refine ⟨by decide, by decide, by decide, by decide, by decide, by decide, by decide⟩

end Composite

/-! ## Composite: parents and child lists -/

namespace Composite

theorem SetParent_spec (h h1 : List Component) (c : Nat) (v : Option Nat)
    (e : SetParent h c v = some h1) :
    (∀ x, GetParent h1 x = if x = c then some v else GetParent h x) ∧
    (∀ P, childrenOf h1 P = childrenOf h P) := by
  unfold SetParent at e
  split at e
  · simp at e
  · rename_i p hc
    simp at e
    subst e
    constructor
    · intro x
      by_cases hx : x = c
      · subst hx
        simp [GetParent, List.getElem?_set_same _ _ _ _ hc, Component.parent_]
      · simp [GetParent, List.getElem?_set_other _ _ _ _ (Ne.symm hx), hx]
    · intro P
      by_cases hP : P = c
      · subst hP
        simp [childrenOf, List.getElem?_set_same _ _ _ _ hc, hc]
      · simp [childrenOf, List.getElem?_set_other _ _ _ _ (Ne.symm hP)]
  · rename_i p ch hc
    simp at e
    subst e
    constructor
    · intro x
      by_cases hx : x = c
      · subst hx
        simp [GetParent, List.getElem?_set_same _ _ _ _ hc, Component.parent_]
      · simp [GetParent, List.getElem?_set_other _ _ _ _ (Ne.symm hx), hx]
    · intro P
      by_cases hP : P = c
      · subst hP
        simp [childrenOf, List.getElem?_set_same _ _ _ _ hc, hc]
      · simp [childrenOf, List.getElem?_set_other _ _ _ _ (Ne.symm hP)]

theorem setChildren_spec (h : List Component) (self : Nat) (p : Option Nat) (ch ch1 : List Nat)
    (hs : h[self]? = some (.Composite p ch)) :
    (∀ x, GetParent (h.set self (.Composite p ch1)) x = GetParent h x) ∧
    (∀ P, childrenOf (h.set self (.Composite p ch1)) P
      = if P = self then ch1 else childrenOf h P) := by
  constructor
  · intro x
    by_cases hx : x = self
    · subst hx
      simp [GetParent, List.getElem?_set_same _ _ _ _ hs, hs, Component.parent_]
    · simp [GetParent, List.getElem?_set_other _ _ _ _ (Ne.symm hx)]
  · intro P
    by_cases hP : P = self
    · subst hP
      simp [childrenOf, List.getElem?_set_same _ _ _ _ hs]
    · simp [childrenOf, List.getElem?_set_other _ _ _ _ (Ne.symm hP), hP]

/-- What a call does to parents and child lists: nothing on a `Leaf`; on a `Composite` the
child list of `self` is replaced and the parent of `component` is set. -/
theorem apply_spec (call : Call) (h h2 : List Component) (e : call.apply h = some h2) :
    h2 = h ∨
    ∃ (self c : Nat) (v : Option Nat) (f : List Nat → List Nat),
      ((call = .Add self c ∧ v = some self ∧ f = fun l => l ++ [c]) ∨
       (call = .Remove self c ∧ v = none ∧ f = fun l => l.filter (fun x => x ≠ c))) ∧
      (∀ x, GetParent h2 x = if x = c then some v else GetParent h x) ∧
      (∀ P, childrenOf h2 P = if P = self then f (childrenOf h self) else childrenOf h P) := by
  cases call with
  | Add self c =>
    simp only [Call.apply, Add] at e
    split at e
    · simp at e
    · simp at e; exact Or.inl e.symm
    · rename_i p ch hs
      right
      have a := setChildren_spec h self p ch (ch ++ [c]) hs
      have b := SetParent_spec _ _ _ _ e
      refine ⟨self, c, some self, _, Or.inl ⟨rfl, rfl, rfl⟩, fun x => ?_, fun P => ?_⟩
      · rw [b.1 x, a.1 x]
      · rw [b.2 P, a.2 P]
        simp [childrenOf, hs]
  | Remove self c =>
    simp only [Call.apply, Remove] at e
    split at e
    · simp at e
    · simp at e; exact Or.inl e.symm
    · rename_i p ch hs
      right
      have a := setChildren_spec h self p ch (ch.filter (fun x => x ≠ c)) hs
      have b := SetParent_spec _ _ _ _ e
      refine ⟨self, c, none, _, Or.inr ⟨rfl, rfl, rfl⟩, fun x => ?_, fun P => ?_⟩
      · rw [b.1 x, a.1 x]
      · rw [b.2 P, a.2 P]
        simp [childrenOf, hs]

theorem apply_keeps_parent_in_list (call : Call) (h h2 : List Component)
    (e : call.apply h = some h2)
    (hI : ∀ x P, GetParent h x = some (some P) → x ∈ childrenOf h P) :
    ∀ x P, GetParent h2 x = some (some P) → x ∈ childrenOf h2 P := by
  rcases apply_spec call h h2 e with rfl | ⟨self, c, v, f, hcase, hp, hc⟩
  · exact hI
  · intro x P hx
    rw [hp x] at hx
    rw [hc P]
    rcases hcase with ⟨_, rfl, rfl⟩ | ⟨_, rfl, rfl⟩
    · by_cases hxc : x = c
      · subst hxc
        simp at hx
        subst hx
        simp
      · simp only [hxc, if_false] at hx
        have := hI x P hx
        by_cases hP : P = self
        · subst hP; simp [this]
        · simp [hP, this]
    · by_cases hxc : x = c
      · subst hxc
        simp at hx
      · simp only [hxc, if_false] at hx
        have := hI x P hx
        by_cases hP : P = self
        · subst hP; simp [this, hxc]
        · simp [hP, this]

theorem apply_keeps_list_in_parent (call : Call) (h h2 : List Component)
    (e : call.apply h = some h2) (ha : call.allowed h = true)
    (hI : ∀ x P, x ∈ childrenOf h P → GetParent h x = some (some P)) :
    ∀ x P, x ∈ childrenOf h2 P → GetParent h2 x = some (some P) := by
  rcases apply_spec call h h2 e with rfl | ⟨self, c, v, f, hcase, hp, hc⟩
  · exact hI
  · intro x P hx
    rw [hc P] at hx
    rw [hp x]
    have hallow : GetParent h c = some none ∨ GetParent h c = some (some self) := by
      rcases hcase with ⟨rfl, _, _⟩ | ⟨rfl, _, _⟩ <;> simpa [Call.allowed] using ha
    have hother : ∀ Q, Q ≠ self → c ∉ childrenOf h Q := by
      intro Q hQ hmem
      have := hI c Q hmem
      rcases hallow with g | g
      · rw [g] at this; simp at this
      · rw [g] at this; simp at this; exact hQ this.symm
    rcases hcase with ⟨_, rfl, rfl⟩ | ⟨_, rfl, rfl⟩
    · by_cases hP : P = self
      · subst hP
        simp only [if_true, List.mem_append, List.mem_singleton] at hx
        by_cases hxc : x = c
        · simp [hxc]
        · simp only [hxc, if_false]
          rcases hx with hx | hx
          · exact hI x P hx
          · exact absurd hx hxc
      · simp only [hP, if_false] at hx
        by_cases hxc : x = c
        · subst hxc; exact absurd hx (hother P hP)
        · simp only [hxc, if_false]; exact hI x P hx
    · by_cases hP : P = self
      · subst hP
        simp only [if_true, List.mem_filter, decide_eq_true_eq] at hx
        simp only [hx.2, if_false]
        exact hI x P hx.1
      · simp only [hP, if_false] at hx
        by_cases hxc : x = c
        · subst hxc; exact absurd hx (hother P hP)
        · simp only [hxc, if_false]; exact hI x P hx

theorem run_keeps (calls : List Call) : ∀ (h h2 : List Component), run calls h = some h2 →
    ((∀ x P, GetParent h x = some (some P) → x ∈ childrenOf h P) →
      ∀ x P, GetParent h2 x = some (some P) → x ∈ childrenOf h2 P) ∧
    (disciplined calls h = true →
      (∀ x P, x ∈ childrenOf h P → GetParent h x = some (some P)) →
      ∀ x P, x ∈ childrenOf h2 P → GetParent h2 x = some (some P)) := by
  induction calls with
  | nil => intro h h2 e; simp [run] at e; subst e; exact ⟨id, fun _ => id⟩
  | cons c rest ih =>
    intro h h2 e
    simp only [run] at e
    split at e
    · simp at e
    · rename_i h1 e1
      have i := ih h1 h2 e
      refine ⟨fun hI => i.1 (apply_keeps_parent_in_list c h h1 e1 hI), fun hd hI => ?_⟩
      simp only [disciplined, e1, Bool.and_eq_true] at hd
      exact i.2 hd.2 (apply_keeps_list_in_parent c h h1 e1 hd.1 hI)

theorem fresh_spec (h : List Component) (hf : ∀ x ∈ h, x.isFresh = true) :
    (∀ x, GetParent h x = none ∨ GetParent h x = some none) ∧ ∀ P, childrenOf h P = [] := by
  constructor
  · intro x
    unfold GetParent
    cases hx : h[x]? with
    | none => exact Or.inl rfl
    | some obj =>
      right
      have := hf obj (List.mem_of_getElem?_some _ _ _ hx)
      cases obj with
      | Leaf p => cases p <;> simp [Component.isFresh] at this ⊢; rfl
      | Composite p ch =>
        cases p <;> cases ch <;> simp [Component.isFresh] at this ⊢
        rfl
  · intro P
    unfold childrenOf
    cases hx : h[P]? with
    | none => rfl
    | some obj =>
      have := hf obj (List.mem_of_getElem?_some _ _ _ hx)
      cases obj with
      | Leaf p => rfl
      | Composite p ch =>
        cases p <;> cases ch <;> simp [Component.isFresh] at this ⊢

end Composite

namespace Composite

/-- Claim C16 as stated fails: after `P0.Add(c); P1.Add(c)` on fresh components the component
`c` is still in the child list of `P0` while `c.GetParent()` is `P1`; after
`P0.Add(c); P1.Remove(c)` it is still in the child list of `P0` while `c.GetParent()` is
null. -/
theorem parent_child_counterexample :
    (∀ x ∈ [Component.Composite none [], .Composite none [], .Leaf none], x.isFresh = true) ∧
    run [.Add 0 2, .Add 1 2] [.Composite none [], .Composite none [], .Leaf none]
      = some [.Composite none [2], .Composite none [2], .Leaf (some 1)] ∧
    ¬ (2 ∈ childrenOf [.Composite none [2], .Composite none [2], .Leaf (some 1)] 0 ↔
      GetParent [.Composite none [2], .Composite none [2], .Leaf (some 1)] 2 = some (some 0)) ∧
    run [.Add 0 2, .Remove 1 2] [.Composite none [], .Composite none [], .Leaf none]
      = some [.Composite none [2], .Composite none [], .Leaf none] ∧
    ¬ (2 ∈ childrenOf [.Composite none [2], .Composite none [], .Leaf none] 0 ↔
      GetParent [.Composite none [2], .Composite none [], .Leaf none] 2 = some (some 0)) := by
  refine ⟨by decide, by decide, by decide, by decide, by decide⟩

/-- Claim C16, amended (parents and child lists): in every state reached from freshly created
components (`parent_` null, child lists empty) by any sequence of `Add` and `Remove` calls, if
`c.GetParent() == P` then `c` occurs in the child list of `P`; and when every call `P.Add(c)`
or `P.Remove(c)` of the sequence is made while `c.GetParent()` is null or `P`, a component `c`
occurs in the child list of `P` if and only if `c.GetParent() == P`. -/
theorem parent_child_consistency (heap0 : List Component) (calls : List Call)
    (h : List Component) (hfresh : ∀ x ∈ heap0, x.isFresh = true)
    (hrun : run calls heap0 = some h) :
    (∀ c P, GetParent h c = some (some P) → c ∈ childrenOf h P) ∧
    (disciplined calls heap0 = true →
      ∀ c P, c ∈ childrenOf h P ↔ GetParent h c = some (some P)) := by
  have f := fresh_spec heap0 hfresh
  have k := run_keeps calls heap0 h hrun
  have h1 : ∀ x P, GetParent heap0 x = some (some P) → x ∈ childrenOf heap0 P := by
    intro x P hx
    rcases f.1 x with g | g <;> rw [g] at hx <;> simp at hx
  have h2 : ∀ x P, x ∈ childrenOf heap0 P → GetParent heap0 x = some (some P) := by
    intro x P hx
    rw [f.2 P] at hx
    simp at hx
  exact ⟨k.1 h1, fun hd c P => ⟨k.2 hd h2 c P, k.1 h1 c P⟩⟩

theorem parent_child_consistency_witness :
    run [.Add 0 2, .Add 0 3, .Remove 0 2, .Add 1 2]
        [.Composite none [], .Composite none [], .Leaf none, .Leaf none]
      = some [.Composite none [3], .Composite none [2], .Leaf (some 1), .Leaf (some 0)] ∧
    disciplined [.Add 0 2, .Add 0 3, .Remove 0 2, .Add 1 2]
        [.Composite none [], .Composite none [], .Leaf none, .Leaf none] = true ∧
    (2 ∈ childrenOf
        [.Composite none [3], .Composite none [2], .Leaf (some 1), .Leaf (some 0)] 1 ↔
      GetParent [.Composite none [3], .Composite none [2], .Leaf (some 1), .Leaf (some 0)] 2
        = some (some 1)) := by
  have hrun : run [.Add 0 2, .Add 0 3, .Remove 0 2, .Add 1 2]
        [.Composite none [], .Composite none [], .Leaf none, .Leaf none]
      = some [.Composite none [3], .Composite none [2], .Leaf (some 1), .Leaf (some 0)] := by
    decide
  have hd : disciplined [.Add 0 2, .Add 0 3, .Remove 0 2, .Add 1 2]
        [.Composite none [], .Composite none [], .Leaf none, .Leaf none] = true := by decide
  exact ⟨hrun, hd,
    (parent_child_consistency _ _ _ (by decide) hrun).2 hd 2 1⟩

end Composite
